import Mathlib

/-!
Shallow embedding of the B-tree implementation in `src/main.rs`.

Modelling conventions:
* Rust `usize`/`isize` become `Nat`/`Int`.  The one place the code computes a
  `usize` subtraction that can underflow (`(self.n - 1) as isize`, line 140)
  is modelled as a checked subtraction producing the distinguished error
  `Err.underflowSub`.
* Slice indexing `xs[i]` panics when out of bounds; this is modelled by
  `getE`/`setE` returning `Err.oobIndex`.  Indexing with a negative `isize`
  cast to `usize` (`xs[i as usize]` with `i < 0`) wraps to a huge index and
  hence also panics out of bounds; `getI`/`setI` model this by returning
  `Err.oobIndex` for negative indices.
* `Option::unwrap` on `None` panics; modelled by `unwrapO` returning
  `Err.unwrapNone`.
* Recursive tree walks take an explicit `fuel : Nat` bounding recursion
  depth (the Rust recursion descends one tree level per call); exhausting
  fuel yields `Err.fuelOut`.  Theorems quantify over fuel or supply a
  sufficiently large concrete fuel, so that every terminating Rust execution
  corresponds to an execution of the model with enough fuel.
-/

/-- Error outcomes of the modelled Rust code: each constructor corresponds to
one way the original program can panic, plus `fuelOut` for exhaustion of the
explicit recursion-depth budget of the model. -/
inductive Err where
  | degreePanic
  | underflowSub
  | oobIndex
  | unwrapNone
  | fuelOut
deriving DecidableEq, Repr

/-- The `Entry<K, P>` struct of the source, monomorphised to `Nat` keys and
`Nat` payloads. -/
structure Entry where
  key : Nat
  value : Nat
deriving DecidableEq, Repr

/-- The `Node<K, P>` struct: degree `t`, entry count `n`, leaf flag, the slot
array `keys` of capacity `2t-1` and the slot array `child` of capacity `2t`. -/
inductive Node where
  | mk (t n : Nat) (leaf : Bool) (keys : List (Option Entry)) (child : List (Option Node))

/-- Field `t` of a node. -/
def Node.t : Node → Nat
  | .mk t _ _ _ _ => t

/-- Field `n` of a node. -/
def Node.n : Node → Nat
  | .mk _ n _ _ _ => n

/-- Field `leaf` of a node. -/
def Node.leaf : Node → Bool
  | .mk _ _ leaf _ _ => leaf

/-- Field `keys` of a node. -/
def Node.keys : Node → List (Option Entry)
  | .mk _ _ _ keys _ => keys

/-- Field `child` of a node. -/
def Node.child : Node → List (Option Node)
  | .mk _ _ _ _ child => child

/-- Functional update of the `keys` field. -/
def Node.withKeys : Node → List (Option Entry) → Node
  | .mk t n leaf _ child, keys => .mk t n leaf keys child

/-- Functional update of the `child` field. -/
def Node.withChild : Node → List (Option Node) → Node
  | .mk t n leaf keys _, child => .mk t n leaf keys child

/-- Functional update of the `n` field. -/
def Node.withN : Node → Nat → Node
  | .mk t _ leaf keys child, n => .mk t n leaf keys child

/-- Checked read `l[i]` for a `usize` index: panics (`oobIndex`) when out of
bounds, like Rust slice indexing. -/
def getE (l : List α) (i : Nat) : Except Err α :=
  match l[i]? with
  | some a => .ok a
  | none => .error .oobIndex

/-- Checked read `l[i as usize]` for an `isize` index `i`: a negative `i`
wraps to a huge `usize` and therefore indexes out of bounds. -/
def getI (l : List α) (i : Int) : Except Err α :=
  if i < 0 then .error .oobIndex else getE l i.toNat

/-- Checked write `l[i] = a` for a `usize` index. -/
def setE (l : List α) (i : Nat) (a : α) : Except Err (List α) :=
  if i < l.length then .ok (l.set i a) else .error .oobIndex

/-- Checked write `l[i as usize] = a` for an `isize` index. -/
def setI (l : List α) (i : Int) (a : α) : Except Err (List α) :=
  if i < 0 then .error .oobIndex else setE l i.toNat a

/-- Model of `Option::unwrap`. -/
def unwrapO : Option α → Except Err α
  | some a => .ok a
  | none => .error .unwrapNone

/-- `Node::new(t, leaf)` (main.rs 48-76): fresh node with `2t` empty child
slots and `2t-1` empty key slots. -/
def Node.new (t : Nat) (leaf : Bool) : Node :=
  .mk t 0 leaf (List.replicate (2 * t - 1) none) (List.replicate (2 * t) none)

/-- The loop `for i in 0..self.n { t.push(self.keys[i].unwrap()) }` of
`Node::traverse` (main.rs 79-82), pushing this node's own entries onto the
collector in slot order.  `rem` is the number of remaining iterations
(`n - i`), kept in lockstep with the index `i` so that the recursion is
structural and hence computable by the kernel. -/
def pushOwn (keys : List (Option Entry)) : Nat → Nat → List Entry →
    Except Err (List Entry)
  | 0, _, acc => .ok acc
  | rem + 1, i, acc =>
    match getE keys i with
    | .error e => .error e
    | .ok o =>
      match unwrapO o with
      | .error e => .error e
      | .ok e => pushOwn keys rem (i + 1) (acc ++ [e])

/-- The loop `for i in 0..self.n + 1 { self.child[i].unwrap().traverse(t) }`
of `Node::traverse` (main.rs 85-88), abstracted over the recursive traversal
of a child (`trav`); `rem` counts the remaining iterations (`n + 1 - i`). -/
def travChildren (trav : Node → List Entry → Except Err (List Entry))
    (child : List (Option Node)) : Nat → Nat → List Entry →
    Except Err (List Entry)
  | 0, _, acc => .ok acc
  | rem + 1, i, acc =>
    match getE child i with
    | .error e => .error e
    | .ok o =>
      match unwrapO o with
      | .error e => .error e
      | .ok c =>
        match trav c acc with
        | .error e => .error e
        | .ok acc' => travChildren trav child rem (i + 1) acc'

/-- `Node::traverse` (main.rs 78-90): push all own entries, then, if the node
is internal, traverse children `0..n+1` left to right. -/
def Node.traverse : Nat → Node → List Entry → Except Err (List Entry)
  | 0, _, _ => .error .fuelOut
  | fuel + 1, nd, acc =>
    match pushOwn nd.keys nd.n 0 acc with
    | .error e => .error e
    | .ok acc' =>
      if nd.leaf then .ok acc'
      else
        travChildren (fun c a => Node.traverse fuel c a) nd.child
          (nd.n + 1) 0 acc'

/-- The linear scan `while i < self.n && self.keys[i].unwrap().get_key() < key
{ i += 1 }` of `Node::search` (main.rs 102-104); `rem` counts the remaining
iterations (`n - i`). -/
def linScan (keys : List (Option Entry)) (key : Nat) : Nat → Nat →
    Except Err Nat
  | 0, i => .ok i
  | rem + 1, i =>
    match getE keys i with
    | .error e => .error e
    | .ok o =>
      match unwrapO o with
      | .error e => .error e
      | .ok e => if e.key < key then linScan keys key rem (i + 1) else .ok i

/-- The loop of `Node::binary_search_keys` (main.rs 118-137) over `isize`
bounds `low`/`high`; returns the matching index or the sentinel `-1`.  The
division `(high - low) / 2` only happens with `high - low ≥ 0`, where Lean's
integer division agrees with Rust's truncating `isize` division.  The loop
halves the interval each iteration, so any structural fuel `fb` exceeding the
initial interval length makes `fuelOut` unreachable. -/
def bsGo (keys : List (Option Entry)) (key : Nat) : Nat → Int → Int →
    Except Err Int
  | 0, _, _ => .error .fuelOut
  | fb + 1, low, high =>
    if low ≤ high then
      let mid := low + (high - low) / 2
      match getI keys mid with
      | .error e => .error e
      | .ok o =>
        match unwrapO o with
        | .error e => .error e
        | .ok e =>
          if e.key = key then .ok mid
          else if key < e.key then bsGo keys key fb low (mid - 1)
          else bsGo keys key fb (mid + 1) high
    else
      .ok (-1)

/-- `Node::binary_search_keys` (main.rs 118-137), with fuel `n + 1`, which is
at least the interval length `high - low + 1 = n` of the initial call. -/
def Node.binary_search_keys (nd : Node) (key : Nat) : Except Err Int :=
  bsGo nd.keys key (nd.n + 1) 0 ((nd.n : Int) - 1)

/-- The final part of `Node::search` (main.rs 111-115): report "not found"
on a leaf or an out-of-range child index, else descend into `child[i]` via
the abstracted recursive call `srch` (which carries the same `force_linear`
flag, per main.rs 115). -/
def searchDescend (srch : Node → Except Err (Option Entry)) (nd : Node)
    (i : Nat) : Except Err (Option Entry) :=
  if i ≥ nd.child.length || nd.leaf then .ok none
  else
    match getE nd.child i with
    | .error e => .error e
    | .ok o =>
      match unwrapO o with
      | .error e => .error e
      | .ok c => srch c

/-- The tail of `Node::search` after the index `i` is determined
(main.rs 107-115): return the exact match at slot `i` if present
(short-circuiting `self.n > i` before the unwrap), otherwise fall through to
`searchDescend`. -/
def searchAfter (srch : Node → Except Err (Option Entry)) (nd : Node)
    (key : Nat) (i : Nat) : Except Err (Option Entry) :=
  if nd.n > i then
    match getE nd.keys i with
    | .error e => .error e
    | .ok o =>
      match unwrapO o with
      | .error e => .error e
      | .ok e => if e.key = key then .ok (some e) else searchDescend srch nd i
  else searchDescend srch nd i

/-- `Node::search` (main.rs 92-116).  When `!force_linear && n > 512` it
attempts `binary_search_keys`; a `-1` result re-invokes `search` on the same
node with `force_linear = true`, otherwise the found index is used.  The small
or forced-linear case uses the linear scan. -/
def Node.search : Nat → Node → Nat → Bool → Except Err (Option Entry)
  | 0, _, _, _ => .error .fuelOut
  | fuel + 1, nd, key, forceLinear =>
    if !forceLinear && nd.n > 512 then
      match nd.binary_search_keys key with
      | .error e => .error e
      | .ok l =>
        if l = -1 then Node.search fuel nd key true
        else
          searchAfter (fun c => Node.search fuel c key forceLinear) nd key
            l.toNat
    else
      match linScan nd.keys key nd.n 0 with
      | .error e => .error e
      | .ok i =>
        searchAfter (fun c => Node.search fuel c key forceLinear) nd key i

/-- The scan `while i >= 0 && self.keys[i].unwrap().get_key() > &key
{ i -= 1 }` of the internal branch of `Node::insert_non_full`
(main.rs 152-154).  The countdown argument equals `(i + 1) as usize`, so in
the `rem + 1` case the current index is `i = rem`, and the base case returns
`i = -1`. -/
def scanDown (keys : List (Option Entry)) (key : Nat) : Nat → Except Err Int
  | 0 => .ok (-1)
  | rem + 1 =>
    match getI keys (rem : Int) with
    | .error e => .error e
    | .ok o =>
      match unwrapO o with
      | .error e => .error e
      | .ok e =>
        if e.key > key then scanDown keys key rem else .ok (rem : Int)

/-- The shifting scan of the leaf branch of `Node::insert_non_full`
(main.rs 144-147): `while i >= 0 && keys[i].unwrap().get_key() > &key
{ keys[i+1] = keys[i].take(); i -= 1 }`.  As in `scanDown`, the countdown
argument equals `(i + 1) as usize`, so the current index is `i = rem`. -/
def leafShift (key : Nat) : Nat → List (Option Entry) →
    Except Err (List (Option Entry) × Int)
  | 0, keys => .ok (keys, -1)
  | rem + 1, keys =>
    match getI keys (rem : Int) with
    | .error e => .error e
    | .ok o =>
      match unwrapO o with
      | .error e => .error e
      | .ok e =>
        if e.key > key then
          match setI keys (rem : Int) none with
          | .error er => .error er
          | .ok keys1 =>
            match setI keys1 ((rem : Int) + 1) o with
            | .error er => .error er
            | .ok keys2 => leafShift key rem keys2
        else .ok (keys, (rem : Int))

/-- The two slot-moving loops of `Node::split_nodes`: the key loop
(main.rs 178-182, `dst[j] = src[j + t].take()` for `j < t-1`) and the child
loop (main.rs 185-191, same with `j < t` on the child arrays), abstracted
over the slot type; `rem` counts the remaining iterations. -/
def moveLoop (t : Nat) : Nat → Nat → List (Option α) → List (Option α) →
    Except Err (List (Option α) × List (Option α))
  | 0, _, src, dst => .ok (src, dst)
  | rem + 1, j, src, dst =>
    match getE src (j + t) with
    | .error e => .error e
    | .ok o =>
      match setE src (j + t) none with
      | .error e => .error e
      | .ok src1 =>
        match setE dst j o with
        | .error e => .error e
        | .ok dst1 => moveLoop t rem (j + 1) src1 dst1

/-- The child-shifting loop of `Node::split_nodes` (main.rs 196-200):
`let mut j = self.n; while j >= pos + 1 { self.child[j+1] = self.child[j].take(); j -= 1 }`.
The countdown satisfies `j = pos + rem` in the `rem + 1` case (counting
`n - pos` iterations down from `j = n`). -/
def shiftChild (pos : Nat) : Nat → List (Option Node) →
    Except Err (List (Option Node))
  | 0, child => .ok child
  | rem + 1, child =>
    let j := pos + rem + 1
    match getE child j with
    | .error e => .error e
    | .ok o =>
      match setE child j none with
      | .error e => .error e
      | .ok child1 =>
        match setE child1 (j + 1) o with
        | .error e => .error e
        | .ok child2 => shiftChild pos rem child2

/-- The key-shifting loop of `Node::split_nodes` (main.rs 204-208):
`let mut j: isize = self.n as isize - 1; while j >= pos { keys[j+1] = keys[j].take(); j -= 1 }`.
The countdown satisfies `j = pos + rem` in the `rem + 1` case (counting
`n - pos` iterations down from `j = n - 1`). -/
def shiftKeys (pos : Nat) : Nat → List (Option Entry) →
    Except Err (List (Option Entry))
  | 0, keys => .ok keys
  | rem + 1, keys =>
    let j : Int := (pos : Int) + (rem : Int)
    match getI keys j with
    | .error e => .error e
    | .ok o =>
      match setI keys j none with
      | .error e => .error e
      | .ok keys1 =>
        match setI keys1 (j + 1) o with
        | .error e => .error e
        | .ok keys2 => shiftKeys pos rem keys2

/-- `Node::split_nodes(pos, child_index)` (main.rs 170-212): split the full
child `y = child[child_index]` into `y` (lower half) and a fresh sibling `z`
(upper half), promote the median `y.keys[t-1]` into this node at key slot
`pos`, and place `z` at child slot `pos+1`. -/
def Node.split_nodes (nd : Node) (pos childIndex : Nat) : Except Err Node :=
  match getE nd.child childIndex with
  | .error e => .error e
  | .ok oy =>
    match unwrapO oy with
    | .error e => .error e
    | .ok y =>
      -- let mut z = Node::new(self.t, y.leaf); z.n = y.t - 1;
      let z := Node.new nd.t y.leaf
      let zn := y.t - 1
      match moveLoop nd.t (nd.t - 1) 0 y.keys z.keys with
      | .error e => .error e
      | .ok (ykeys, zkeys) =>
        match (if y.leaf then
                (.ok (y.child, z.child) :
                  Except Err (List (Option Node) × List (Option Node)))
               else moveLoop nd.t nd.t 0 y.child z.child) with
        | .error e => .error e
        | .ok (ychild, zchild) =>
          -- y.n = self.t - 1; let c = y.keys[self.t - 1].take();
          match getE ykeys (nd.t - 1) with
          | .error e => .error e
          | .ok c =>
            match setE ykeys (nd.t - 1) none with
            | .error e => .error e
            | .ok ykeys1 =>
              let y1 := Node.mk y.t (nd.t - 1) y.leaf ykeys1 ychild
              match setE nd.child childIndex (some y1) with
              | .error e => .error e
              | .ok child1 =>
                match shiftChild pos (nd.n - pos) child1 with
                | .error e => .error e
                | .ok child2 =>
                  match setE child2 (pos + 1)
                      (some (Node.mk z.t zn z.leaf zkeys zchild)) with
                  | .error e => .error e
                  | .ok child3 =>
                    match shiftKeys pos (nd.n - pos) nd.keys with
                    | .error e => .error e
                    | .ok keys1 =>
                      match setE keys1 pos c with
                      | .error e => .error e
                      | .ok keys2 =>
                        .ok (Node.mk nd.t (nd.n + 1) nd.leaf keys2 child3)

/-- `Node::insert_non_full` (main.rs 139-168).  Line 140 computes
`(self.n - 1) as isize` in `usize` arithmetic first, so `n = 0` is an
unsigned underflow, modelled as `Err.underflowSub`.  In the internal branch,
after splitting a full child the code compares the inserted key against
`keys[i]` (main.rs 159) — with `i` still the scan index, so `i = -1` indexes
out of bounds — to decide whether to shift the descent index. -/
def Node.insert_non_full : Nat → Node → Nat → Nat → Except Err Node
  | 0, _, _, _ => .error .fuelOut
  | fuel + 1, nd, key, value =>
    if nd.n = 0 then .error .underflowSub
    else
      -- the scans start at `i = n - 1`, i.e. countdown `(i + 1) as usize = n`
      if nd.leaf then
        match leafShift key nd.n nd.keys with
        | .error e => .error e
        | .ok (keys1, i1) =>
          match setI keys1 (i1 + 1) (some ⟨key, value⟩) with
          | .error e => .error e
          | .ok keys2 => .ok ((nd.withKeys keys2).withN (nd.n + 1))
      else
        match scanDown nd.keys key nd.n with
        | .error e => .error e
        | .ok i1 =>
          match getI nd.child (i1 + 1) with
          | .error e => .error e
          | .ok oc =>
            match unwrapO oc with
            | .error e => .error e
            | .ok c =>
              match (if c.n = 2 * nd.t - 1 then
                      match nd.split_nodes (i1 + 1).toNat (i1 + 1).toNat with
                      | .error e => (.error e : Except Err (Node × Int))
                      | .ok nd1 =>
                        match getI nd1.keys i1 with
                        | .error e => .error e
                        | .ok o =>
                          match unwrapO o with
                          | .error e => .error e
                          | .ok e =>
                            .ok (nd1, if e.key < key then i1 + 1 else i1)
                     else .ok (nd, i1)) with
              | .error e => .error e
              | .ok (nd2, i2) =>
                match getI nd2.child (i2 + 1) with
                | .error e => .error e
                | .ok oc2 =>
                  match unwrapO oc2 with
                  | .error e => .error e
                  | .ok c2 =>
                    match Node.insert_non_full fuel c2 key value with
                    | .error e => .error e
                    | .ok c3 =>
                      match setI nd2.child (i2 + 1) (some c3) with
                      | .error e => .error e
                      | .ok child1 => .ok (nd2.withChild child1)

/-- The `BTree<K, P>` struct (main.rs 215-223). -/
structure BTree where
  root : Option Node
  t : Nat

/-- `BTree::new(t)` (main.rs 230-236): panics when `t < 2`. -/
def BTree.new (t : Nat) : Except Err BTree :=
  if t < 2 then .error .degreePanic else .ok ⟨none, t⟩

/-- `BTree::traverse` (main.rs 238-248): `None` on an empty tree, otherwise
the root's traversal into a fresh collector. -/
def BTree.traverse (fuel : Nat) (tr : BTree) :
    Except Err (Option (List Entry)) :=
  match tr.root with
  | some r =>
    match Node.traverse fuel r [] with
    | .error e => .error e
    | .ok l => .ok (some l)
  | none => .ok none

/-- `BTree::search` (main.rs 250-255). -/
def BTree.search (fuel : Nat) (tr : BTree) (key : Nat) :
    Except Err (Option Entry) :=
  match tr.root with
  | some r => Node.search fuel r key false
  | none => .ok none

/-- `BTree::search_linear` (main.rs 257-262). -/
def BTree.search_linear (fuel : Nat) (tr : BTree) (key : Nat) :
    Except Err (Option Entry) :=
  match tr.root with
  | some r => Node.search fuel r key true
  | none => .ok none

/-- `BTree::insert` (main.rs 264-301). -/
def BTree.insert (fuel : Nat) (tr : BTree) (key value : Nat) :
    Except Err BTree :=
  match tr.root with
  | none =>
    let root := Node.new tr.t true
    match setE root.keys 0 (some ⟨key, value⟩) with
    | .error e => .error e
    | .ok keys1 => .ok ⟨some (Node.mk tr.t 1 true keys1 root.child), tr.t⟩
  | some r =>
    if r.n = 2 * tr.t - 1 then
      let s := Node.new tr.t false
      match setE s.child 0 (some r) with
      | .error e => .error e
      | .ok child1 =>
        match (s.withChild child1).split_nodes 0 0 with
        | .error e => .error e
        | .ok s1 =>
          match getE s1.keys 0 with
          | .error e => .error e
          | .ok o =>
            match unwrapO o with
            | .error e => .error e
            | .ok med =>
              let index := if med.key < key then 1 else 0
              match getE s1.child index with
              | .error e => .error e
              | .ok oc =>
                match unwrapO oc with
                | .error e => .error e
                | .ok c =>
                  match Node.insert_non_full fuel c key value with
                  | .error e => .error e
                  | .ok c1 =>
                    match setE s1.child index (some c1) with
                    | .error e => .error e
                    | .ok child2 => .ok ⟨some (s1.withChild child2), tr.t⟩
    else
      match Node.insert_non_full fuel r key value with
      | .error e => .error e
      | .ok r1 => .ok ⟨some r1, tr.t⟩

/-- Insert a list of `(key, value)` pairs in order into a fresh tree of
degree `t`, with the given recursion fuel for each insertion. -/
def insertList (fuel t : Nat) (ps : List (Nat × Nat)) : Except Err BTree :=
  match BTree.new t with
  | .error e => .error e
  | .ok tr =>
    ps.foldlM (fun tr p => BTree.insert fuel tr p.1 p.2) tr

/-- The keys of the occupied entry slots `[0, n)` of a node, in slot order. -/
def Node.keyList (nd : Node) : List Nat :=
  (nd.keys.take nd.n).filterMap (fun o => o.map Entry.key)

/-- The child stored at child slot `i`, if the slot exists and is occupied. -/
def Node.childAt (nd : Node) (i : Nat) : Option Node :=
  nd.child[i]?.join

/-- The entry count `n` of the root node, if the tree is non-empty. -/
def BTree.rootN (tr : BTree) : Option Nat := tr.root.map Node.n

/-- The keys of the root's occupied entry slots, if the tree is non-empty. -/
def BTree.rootKeyList (tr : BTree) : Option (List Nat) :=
  tr.root.map Node.keyList

/-- The keys of the occupied entry slots of the root's child `i`. -/
def BTree.rootChildKeyList (tr : BTree) (i : Nat) : Option (List Nat) :=
  tr.root.bind fun r => (r.childAt i).map Node.keyList

/-- The insertion sequence of the spec's §8 scenario: degree 2, keys
`[10, 20, 5, 6, 12, 30, 7, 17]` (each key used as its own payload). -/
def ks8 : List (Nat × Nat) :=
  [(10, 10), (20, 20), (5, 5), (6, 6), (12, 12), (30, 30), (7, 7), (17, 17)]

/-- An insertion sequence that drives `insert_non_full` into the split branch
with scan index `i = -1` (inserting 7 while `keys = [6, 20]` is about to be
formed by splitting the full `child[0] = [5, 6, 10]`), making line 159 of
main.rs index `keys[(-1) as usize]`. -/
def ks7crash : List (Nat × Nat) :=
  [(10, 10), (20, 20), (30, 30), (40, 40), (5, 5), (6, 6), (7, 7)]

/-- Insertions producing a single leaf holding 513 entries (degree 257, so
capacity `2t-1 = 513 > 512`), whose first two slots hold two entries with the
same key 0 but different payloads 1 and 2. -/
def c4ks : List (Nat × Nat) :=
  (0, 1) :: (0, 2) :: (List.range 511).map (fun j => (j + 2, j + 2))

/-- The slice of the ascending tail of `c4ks` holding the keys
`a + 2 .. b + 1` (used to replay the insertion run in bounded chunks). -/
def c4chunk (a b : Nat) : List (Nat × Nat) :=
  (List.range (b - a)).map (fun j => (a + j + 2, a + j + 2))

/-- The tree state reached from a fresh degree-257 tree after inserting
`(0, 1)`, `(0, 2)` and the ascending keys `2 .. m + 1`: a single leaf root
with `m + 2` entries, two of which share key 0. -/
def c4tree (m : Nat) : BTree :=
  ⟨some (Node.mk 257 (m + 2) true
    (some ⟨0, 1⟩ :: some ⟨0, 2⟩ ::
      ((List.range m).map (fun j => some ⟨j + 2, j + 2⟩) ++
        List.replicate (511 - m) none))
    (List.replicate 514 none)), 257⟩

/-- A four-key insertion sequence whose resulting two-level tree shows that
`traverse` output is not globally sorted. -/
def ks4 : List (Nat × Nat) := [(10, 10), (20, 20), (5, 5), (6, 6)]

/-- Structural well-formedness of a node of a tree of degree `t` at subtree
depth `d` (leaves have depth 0): the node's own degree field equals `t`,
`1 ≤ n ≤ 2t-1`, the slot arrays have their construction lengths `2t-1` and
`2t`, key slots `[0, n)` are occupied and `[n, 2t-1)` empty, and child slots
`[0, n+1)` hold well-formed subtrees of depth `d` while `[n+1, 2t)` are empty
(a leaf has only empty child slots).  Every tree reachable through the public
`BTree` interface satisfies this invariant at every node. -/
inductive WFNode (t : Nat) : Nat → Node → Prop where
  | leaf : ∀ n keys child,
      1 ≤ n → n ≤ 2 * t - 1 →
      keys.length = 2 * t - 1 → child.length = 2 * t →
      (∀ i, i < n → ∃ e, keys[i]? = some (some e)) →
      (∀ i, n ≤ i → i < 2 * t - 1 → keys[i]? = some none) →
      (∀ i, i < 2 * t → child[i]? = some none) →
      WFNode t 0 (Node.mk t n true keys child)
  | internal : ∀ d n keys child,
      1 ≤ n → n ≤ 2 * t - 1 →
      keys.length = 2 * t - 1 → child.length = 2 * t →
      (∀ i, i < n → ∃ e, keys[i]? = some (some e)) →
      (∀ i, n ≤ i → i < 2 * t - 1 → keys[i]? = some none) →
      (∀ i, i ≤ n → ∃ c, child[i]? = some (some c)) →
      (∀ i c, i ≤ n → child[i]? = some (some c) → WFNode t d c) →
      (∀ i, n + 1 ≤ i → i < 2 * t → child[i]? = some none) →
      WFNode t (d + 1) (Node.mk t n false keys child)

/-- Well-formedness of a whole tree: degree at least 2, and a well-formed
root of some depth unless the tree is empty. -/
def BTree.WF (tr : BTree) : Prop :=
  2 ≤ tr.t ∧ (tr.root = none ∨ ∃ d r, tr.root = some r ∧ WFNode tr.t d r)

/-- Every node of the subtree holds at most 512 entries, so that
`Node::search` never takes the binary-search fast path anywhere in it. -/
inductive SmallNodes : Node → Prop where
  | mk : ∀ t n leaf keys child,
      n ≤ 512 →
      (∀ c : Node, some c ∈ child → SmallNodes c) →
      SmallNodes (Node.mk t n leaf keys child)

/-- The occupied contents of the `cnt` slots starting at slot `a` of a slot
array, in slot order (skipping empty or absent slots). -/
def seg (l : List (Option α)) : Nat → Nat → List α
  | _, 0 => []
  | a, cnt + 1 =>
    (match l[a]? with | some (some x) => [x] | _ => []) ++ seg l (a + 1) cnt

/-- The collector produced by a successful traversal from an empty collector
with the given fuel (junk on failure); on a well-formed subtree of depth `d`
any fuel `≥ d + 1` succeeds and yields this list. -/
def travOut (f : Nat) (nd : Node) : List Entry :=
  match Node.traverse f nd [] with
  | .ok l => l
  | .error _ => []

/-- A concrete one-entry leaf of degree 2, used to instantiate theorems with
hypotheses. -/
def demoLeaf : Node :=
  Node.mk 2 1 true [some ⟨5, 5⟩, none, none] [none, none, none, none]

/-- A concrete two-entry leaf of degree 2 (the left child of the tree grown
from `ks4`). -/
def demoLeaf2 : Node :=
  Node.mk 2 2 true [some ⟨5, 5⟩, some ⟨6, 6⟩, none] [none, none, none, none]

/-- A concrete one-entry leaf of degree 2 (the right child of the tree grown
from `ks4`). -/
def demoLeafB : Node :=
  Node.mk 2 1 true [some ⟨20, 20⟩, none, none] [none, none, none, none]

/-- The root of the tree grown from `ks4`: entry 10 separating `demoLeaf2`
and `demoLeafB`. -/
def demoRoot : Node :=
  Node.mk 2 1 false [some ⟨10, 10⟩, none, none]
    [some demoLeaf2, some demoLeafB, none, none]

/-- Claim C1 (code bug): with degree `t = 2 ≥ 2` and the pairwise-distinct
insertion sequence `ks8 = [10,20,5,6,12,30,7,17]`, all inserts complete, yet
`search(17)` returns "not found" even though `(17, 17)` was inserted.  The
cause is main.rs line 159: after splitting the full child the code compares
the new key against `keys[i]` instead of the promoted median `keys[i+1]`, so
17 is routed into the right half `[30]` although `17 < 20`, where the
separator structure makes every later search look in the left half. -/
theorem C1_search_misses_inserted_key :
    (insertList 50 2 ks8).bind (fun tr => BTree.search 50 tr 17) = .ok none ∧
    (17, 17) ∈ ks8 ∧ (ks8.map Prod.fst).Nodup :=
  ⟨rfl, by decide, by decide⟩

/-- Claim C2 (code bug): inserting 17 as the last key of `ks8` splits the
full child `children[1] = [12, 20, 30]`, promoting the median 20 into the
root at position `i + 1 = 1`.  The claim says the inserted key is then
compared against that promoted key (so `17 < 20` would descend into the left
half `children[1]`), but the code (main.rs 159) compares against `keys[i]`
= 10 instead, and places 17 in the right half `children[2]`: afterwards the
root keys are `[10, 20]`, `children[1] = [12]` (17 absent from the left
half), and `children[2] = [17, 30]`. -/
theorem C2_split_descends_right_of_promoted_median :
    (insertList 50 2 ks8).map
      (fun tr => (tr.rootKeyList, tr.rootChildKeyList 1,
                  tr.rootChildKeyList 2)) =
      .ok (some [10, 20], some [12], some [17, 30]) ∧
    17 < 20 :=
  ⟨rfl, by decide⟩

/-- Claim C3 (code bug): insertion does not always complete without failure.
With degree `t = 2 ≥ 2` and the pairwise-distinct keys of `ks7crash`, the
final insert of key 7 finds scan index `i = -1` with a full `child[0]` and
executes `self.keys[(i) as usize]` at line 159 of main.rs, i.e. an
out-of-bounds slice index — a panic, modelled as `Err.oobIndex`. -/
theorem C3_insert_panics_on_reachable_state :
    insertList 50 2 ks7crash = .error .oobIndex ∧
    (ks7crash.map Prod.fst).Nodup :=
  ⟨rfl, by decide⟩

/-- Claim C5 (code bug): after the insertions `ks8` (degree 2), the root
holds entries `[10, 20]` but its child 2 holds keys `[17, 30]`, and
`17 < 20 = entries[1].key`, violating the claimed separator invariant that
all keys of `children[2]` exceed `entries[1].key`. -/
theorem C5_separator_invariant_violated :
    (insertList 50 2 ks8).map
      (fun tr => (tr.rootKeyList, tr.rootChildKeyList 2)) =
      .ok (some [10, 20], some [17, 30]) ∧
    ¬ (∀ k ∈ [17, 30], 20 < k) :=
  ⟨rfl, by decide⟩

/-- Claim C7, counterexample: in the spec's scenario (degree 2, inserting
`[10, 20, 5, 6, 12, 30, 7, 17]` in order) the root ends with exactly two
entries, not one. -/
theorem C7_counterexample_root_entry_count :
    (insertList 50 2 ks8).map BTree.rootN = .ok (some 2) ∧
    some 2 ≠ some (1 : Nat) :=
  ⟨rfl, by decide⟩

/-- Claim C7 as amended: in the scenario, `search(6)` returns the entry
inserted for key 6, `search(99)` reports "not found", and the root holds
exactly two entries. -/
theorem C7_scenario_amended :
    (insertList 50 2 ks8).map
      (fun tr => (BTree.search 50 tr 6, BTree.search 50 tr 99, tr.rootN)) =
    .ok (.ok (some ⟨6, 6⟩), .ok none, some 2) := rfl

/-- Unfolding characterisation of a successful checked read. -/
theorem getE_ok_iff {l : List α} {i : Nat} {a : α} :
    getE l i = .ok a ↔ l[i]? = some a := by
  unfold getE
  cases h : l[i]? <;> simp [h]

/-- Unfolding characterisation of a failed checked read. -/
theorem getE_error_iff {l : List α} {i : Nat} {e : Err} :
    getE l i = .error e ↔ (l[i]? = none ∧ e = .oobIndex) := by
  unfold getE
  cases h : l[i]? <;> simp [h, eq_comm]

/-- Unfolding characterisation of a successful `unwrap`. -/
theorem unwrapO_ok_iff {o : Option α} {a : α} :
    unwrapO o = .ok a ↔ o = some a := by
  cases o <;> simp [unwrapO]

/-- Unfolding characterisation of a successful checked write. -/
theorem setE_ok_iff {l l' : List α} {i : Nat} {a : α} :
    setE l i a = .ok l' ↔ i < l.length ∧ l' = l.set i a := by
  unfold setE
  split <;> simp_all [eq_comm]

/-- Unfolding characterisation of a successful `isize`-indexed read. -/
theorem getI_ok_iff {l : List α} {i : Int} {a : α} :
    getI l i = .ok a ↔ 0 ≤ i ∧ l[i.toNat]? = some a := by
  unfold getI
  split <;> simp_all [getE_ok_iff] <;> omega

/-- Unfolding characterisation of a successful `isize`-indexed write. -/
theorem setI_ok_iff {l l' : List α} {i : Int} {a : α} :
    setI l i a = .ok l' ↔ 0 ≤ i ∧ i.toNat < l.length ∧ l' = l.set i.toNat a := by
  unfold setI
  split <;> simp_all [setE_ok_iff] <;> omega

/-- `searchDescend` only evaluates its search continuation on children of the
node, so continuations that agree on all children give equal results. -/
theorem searchDescend_congr {s1 s2 : Node → Except Err (Option Entry)}
    {nd : Node} {i : Nat}
    (h : ∀ c : Node, some c ∈ nd.child → s1 c = s2 c) :
    searchDescend s1 nd i = searchDescend s2 nd i := by
  unfold searchDescend
  split
  · rfl
  · cases hg : getE nd.child i with
    | error e => rfl
    | ok o =>
      cases o with
      | none => rfl
      | some c =>
        simp only [unwrapO]
        exact h c (List.getElem?_mem (getE_ok_iff.mp hg))

/-- `searchAfter` only evaluates its search continuation on children of the
node, so continuations that agree on all children give equal results. -/
theorem searchAfter_congr {s1 s2 : Node → Except Err (Option Entry)}
    {nd : Node} {key i : Nat}
    (h : ∀ c : Node, some c ∈ nd.child → s1 c = s2 c) :
    searchAfter s1 nd key i = searchAfter s2 nd key i := by
  unfold searchAfter
  split
  · cases getE nd.keys i with
    | error e => rfl
    | ok o =>
      cases o with
      | none => rfl
      | some e =>
        simp only [unwrapO]
        split
        · rfl
        · exact searchDescend_congr h
  · exact searchDescend_congr h

/-- Claim C4 as amended: `search` and `search_linear` agree on every key for
every tree state in which each node holds at most 512 entries (in particular
for every tree of degree `t ≤ 256`, whose nodes hold at most `2t-1 ≤ 511`
entries); the binary-search fast path, which only runs on nodes with more
than 512 entries, is what can change the observable result. -/
theorem C4_search_eq_search_linear_on_small_nodes (fuel key : Nat)
    (nd : Node) (h : SmallNodes nd) :
    Node.search fuel nd key false = Node.search fuel nd key true := by
  induction fuel generalizing nd with
  | zero => rfl
  | succ fuel ih =>
    cases h with
    | mk t n leaf keys child hn hch =>
      have hb : (decide (n > 512)) = false := decide_eq_false (by omega)
      simp only [Node.search, Node.n, Node.keys, hb, Bool.not_false,
        Bool.not_true, Bool.true_and, Bool.false_and, Bool.and_false,
        if_false, Bool.false_eq_true, ite_false]
      cases hls : linScan keys key n 0 with
      | error e => simp [hls]
      | ok i =>
        simp only [hls]
        refine searchAfter_congr ?_
        intro c hc
        exact ih c (hch c (by simpa [Node.child] using hc))

/-- Witness for `C4_search_eq_search_linear_on_small_nodes` at the concrete
one-entry leaf `demoLeaf`. -/
theorem C4_small_nodes_witness :
    Node.search 5 demoLeaf 7 false = Node.search 5 demoLeaf 7 true :=
  C4_search_eq_search_linear_on_small_nodes 5 7 demoLeaf
    (by
      refine SmallNodes.mk 2 1 true _ _ (by omega) ?_
      intro c hc
      simp at hc)

/-- `seg` depends only on the inspected slot window (allowing a change of
base index between two slot arrays). -/
theorem seg_congr {l1 l2 : List (Option α)} :
    ∀ {cnt a b : Nat}, (∀ q, q < cnt → l1[a + q]? = l2[b + q]?) →
      seg l1 a cnt = seg l2 b cnt := by
  intro cnt
  induction cnt with
  | zero => intro a b _; rfl
  | succ cnt ih =>
    intro a b h
    have h0 : l1[a]? = l2[b]? := by
      have := h 0 (by omega)
      simpa using this
    have hrest : ∀ q, q < cnt → l1[(a + 1) + q]? = l2[(b + 1) + q]? := by
      intro q hq
      have := h (q + 1) (by omega)
      rwa [show a + (q + 1) = (a + 1) + q by omega,
        show b + (q + 1) = (b + 1) + q by omega] at this
    simp only [seg, h0, ih hrest]

/-- Splitting a `seg` window into two consecutive windows. -/
theorem seg_split (l : List (Option α)) :
    ∀ (c1 : Nat) (a c2 : Nat),
      seg l a (c1 + c2) = seg l a c1 ++ seg l (a + c1) c2 := by
  intro c1
  induction c1 with
  | zero => intro a c2; simp [seg]
  | succ c1 ih =>
    intro a c2
    have : c1 + 1 + c2 = (c1 + c2) + 1 := by omega
    rw [this]
    simp only [seg, ih (a + 1) c2, List.append_assoc]
    rw [show a + 1 + c1 = a + (c1 + 1) by omega]

/-- A one-slot window over an occupied slot. -/
theorem seg_one_occupied {l : List (Option α)} {a : Nat} {x : α}
    (h : l[a]? = some (some x)) : seg l a 1 = [x] := by
  simp [seg, h]

/-- A one-slot window over an empty slot. -/
theorem seg_one_none {l : List (Option α)} {a : Nat}
    (h : l[a]? = some none) : seg l a 1 = [] := by
  simp [seg, h]

/-- Every element of a `seg` window comes from an occupied slot inside the
window. -/
theorem mem_seg {l : List (Option α)} :
    ∀ {cnt a : Nat} {x : α}, x ∈ seg l a cnt →
      ∃ q, q < cnt ∧ l[a + q]? = some (some x) := by
  intro cnt
  induction cnt with
  | zero => intro a x h; simp [seg] at h
  | succ cnt ih =>
    intro a x h
    simp only [seg, List.mem_append] at h
    rcases h with h | h
    · refine ⟨0, by omega, ?_⟩
      cases hl : l[a]? with
      | none => simp [hl] at h
      | some o =>
        cases o with
        | none => simp [hl] at h
        | some y =>
          simp [hl] at h
          simpa [hl, h]
    · obtain ⟨q, hq, hsl⟩ := ih h
      exact ⟨q + 1, by omega, by rwa [show a + (q + 1) = (a + 1) + q by omega]⟩

/-- `pushOwn` on a window of occupied slots succeeds and appends exactly the
window's entries. -/
theorem pushOwn_ok {keys : List (Option Entry)} :
    ∀ {rem i : Nat} {acc : List Entry},
      (∀ q, q < rem → ∃ e, keys[i + q]? = some (some e)) →
      pushOwn keys rem i acc = .ok (acc ++ seg keys i rem) := by
  intro rem
  induction rem with
  | zero => intro i acc _; simp [pushOwn, seg]
  | succ rem ih =>
    intro i acc h
    obtain ⟨e, he⟩ := h 0 (by omega)
    rw [Nat.add_zero] at he
    have hg : getE keys i = .ok (some e) := getE_ok_iff.mpr he
    have hrest : ∀ q, q < rem → ∃ e, keys[(i + 1) + q]? = some (some e) := by
      intro q hq
      obtain ⟨e', he'⟩ := h (q + 1) (by omega)
      exact ⟨e', by rwa [show i + (q + 1) = (i + 1) + q by omega] at he'⟩
    simp only [pushOwn, hg, unwrapO, ih hrest]
    simp [seg, he]

/-- `linScan` on a window of occupied slots succeeds with an index in the
window (or just past it). -/
theorem linScan_ok {keys : List (Option Entry)} {key : Nat} :
    ∀ {rem i : Nat},
      (∀ q, q < rem → ∃ e, keys[i + q]? = some (some e)) →
      ∃ j, linScan keys key rem i = .ok j ∧ i ≤ j ∧ j ≤ i + rem := by
  intro rem
  induction rem with
  | zero => intro i _; exact ⟨i, rfl, le_refl i, by omega⟩
  | succ rem ih =>
    intro i h
    obtain ⟨e, he⟩ := h 0 (by omega)
    rw [Nat.add_zero] at he
    have hg : getE keys i = .ok (some e) := getE_ok_iff.mpr he
    have hrest : ∀ q, q < rem → ∃ e, keys[(i + 1) + q]? = some (some e) := by
      intro q hq
      obtain ⟨e', he'⟩ := h (q + 1) (by omega)
      exact ⟨e', by rwa [show i + (q + 1) = (i + 1) + q by omega] at he'⟩
    simp only [linScan, hg, unwrapO]
    by_cases hlt : e.key < key
    · obtain ⟨j, hj, hij, hjr⟩ := ih hrest
      exact ⟨j, by simp [hlt, hj], by omega, by omega⟩
    · exact ⟨i, by simp [hlt], le_refl i, by omega⟩

/-- `scanDown` on a slot array whose first `rem` slots are occupied succeeds
and returns an index `jn - 1` with `jn ≤ rem`. -/
theorem scanDown_ok {keys : List (Option Entry)} {key : Nat} :
    ∀ {rem : Nat}, (∀ q, q < rem → ∃ e, keys[q]? = some (some e)) →
      ∃ jn, jn ≤ rem ∧ scanDown keys key rem = .ok ((jn : Int) - 1) := by
  intro rem
  induction rem with
  | zero => exact fun _ => ⟨0, le_refl 0, by simp [scanDown]⟩
  | succ rem ih =>
    intro h
    obtain ⟨e, he⟩ := h rem (by omega)
    have hg : getI keys (rem : Int) = .ok (some e) := by
      rw [getI, if_neg (by omega)]
      simpa [Int.toNat_natCast] using getE_ok_iff.mpr he
    simp only [scanDown, hg, unwrapO]
    by_cases hgt : e.key > key
    · obtain ⟨jn, hjn, hs⟩ := ih (fun q hq => h q (by omega))
      exact ⟨jn, by omega, by simp [hgt, hs]⟩
    · exact ⟨rem + 1, le_refl _, by simp [hgt]⟩

/-- `travChildren` over a window of occupied child slots, when the traversal
of each child in the window appends a fixed list `f c`, succeeds and appends
the concatenation of the children's lists in slot order. -/
theorem travChildren_ok {trav : Node → List Entry → Except Err (List Entry)}
    {child : List (Option Node)} {f : Node → List Entry} :
    ∀ {rem i : Nat} {acc : List Entry},
      (∀ q, q < rem → ∃ c, child[i + q]? = some (some c)) →
      (∀ c, c ∈ seg child i rem → ∀ a, trav c a = .ok (a ++ f c)) →
      travChildren trav child rem i acc =
        .ok (acc ++ (seg child i rem).flatMap f) := by
  intro rem
  induction rem with
  | zero => intro i acc _ _; simp [travChildren, seg]
  | succ rem ih =>
    intro i acc h hf
    obtain ⟨c, hc⟩ := h 0 (by omega)
    rw [Nat.add_zero] at hc
    have hg : getE child i = .ok (some c) := getE_ok_iff.mpr hc
    have hmem : c ∈ seg child i (rem + 1) := by
      simp [seg, hc]
    have hrest : ∀ q, q < rem → ∃ c, child[(i + 1) + q]? = some (some c) := by
      intro q hq
      obtain ⟨c', hc'⟩ := h (q + 1) (by omega)
      exact ⟨c', by rwa [show i + (q + 1) = (i + 1) + q by omega] at hc'⟩
    have hfrest : ∀ c', c' ∈ seg child (i + 1) rem → ∀ a,
        trav c' a = .ok (a ++ f c') := by
      intro c' hc' a
      exact hf c' (by simp [seg, hc, hc']) a
    simp only [travChildren, hg, unwrapO, hf c hmem acc, ih hrest hfrest]
    simp [seg, hc]

/-- On a well-formed subtree of depth `d`, traversal with any fuel `≥ d + 1`
succeeds and appends the canonical output `travOut (d + 1)` to the
collector. -/
theorem traverse_wf {t : Nat} :
    ∀ {d : Nat} {nd : Node}, WFNode t d nd →
      ∀ f, d + 1 ≤ f → ∀ acc,
        Node.traverse f nd acc = .ok (acc ++ travOut (d + 1) nd) := by
  intro d nd h
  induction h with
  | leaf n keys child h1 h2 hkl hcl hocc hkempty hchempty =>
    have hexpr : ∀ f, 1 ≤ f → ∀ acc,
        Node.traverse f (Node.mk t n true keys child) acc =
          .ok (acc ++ seg keys 0 n) := by
      intro f hf acc
      obtain ⟨f', rfl⟩ : ∃ f', f = f' + 1 := ⟨f - 1, by omega⟩
      simp only [Node.traverse, Node.keys, Node.n, Node.leaf]
      rw [pushOwn_ok (by intro q hq; simpa using hocc q hq)]
      simp
    intro f hf acc
    rw [hexpr f hf acc, travOut, hexpr 1 (le_refl 1) []]
    simp
  | internal d n keys child h1 h2 hkl hcl hocc hkempty hchocc hchwf hchempty
      ih =>
    have hexpr : ∀ f, d + 2 ≤ f → ∀ acc,
        Node.traverse f (Node.mk t n false keys child) acc =
          .ok (acc ++ (seg keys 0 n ++
            (seg child 0 (n + 1)).flatMap (fun c => travOut (d + 1) c))) := by
      intro f hf acc
      obtain ⟨f', rfl⟩ : ∃ f', f = f' + 1 := ⟨f - 1, by omega⟩
      simp only [Node.traverse, Node.keys, Node.n, Node.leaf, Node.child]
      rw [pushOwn_ok (by intro q hq; simpa using hocc q hq)]
      simp only [Bool.false_eq_true, if_false]
      rw [travChildren_ok (f := fun c => travOut (d + 1) c)
        (by intro q hq; simpa using hchocc q (by omega))
        (by
          intro c hc a
          obtain ⟨q, hq, hslot⟩ := mem_seg hc
          rw [Nat.zero_add] at hslot
          exact ih q c (by omega) hslot f' (by omega) a)]
      simp [List.append_assoc]
    intro f hf acc
    rw [hexpr f hf acc, travOut, hexpr (d + 2) (le_refl _) []]
    simp

/-- The canonical traversal output does not depend on the fuel, as long as
the fuel covers the subtree depth. -/
theorem travOut_fuel {t d : Nat} {nd : Node} (h : WFNode t d nd) {f : Nat}
    (hf : d + 1 ≤ f) : travOut f nd = travOut (d + 1) nd := by
  rw [travOut, traverse_wf h f hf []]
  simp

/-- Canonical traversal output of a well-formed leaf: its own entries. -/
theorem travOut_leaf {t n : Nat} {keys child}
    (h : WFNode t 0 (Node.mk t n true keys child)) :
    travOut 1 (Node.mk t n true keys child) = seg keys 0 n := by
  cases h with
  | leaf _ _ _ h1 h2 hkl hcl hocc hkempty hchempty =>
    rw [travOut]
    simp only [Node.traverse, Node.keys, Node.n, Node.leaf]
    rw [pushOwn_ok (by intro q hq; simpa using hocc q hq)]
    simp

/-- Canonical traversal output of a well-formed internal node: its own
entries followed by the traversal outputs of children `0..n+1` in order. -/
theorem travOut_internal {t d n : Nat} {keys child}
    (h : WFNode t (d + 1) (Node.mk t n false keys child)) :
    travOut (d + 2) (Node.mk t n false keys child) =
      seg keys 0 n ++
        (seg child 0 (n + 1)).flatMap (fun c => travOut (d + 1) c) := by
  cases h with
  | internal _ _ _ _ h1 h2 hkl hcl hocc hkempty hchocc hchwf hchempty =>
    rw [travOut]
    simp only [Node.traverse, Node.keys, Node.n, Node.leaf, Node.child]
    rw [pushOwn_ok (by intro q hq; simpa using hocc q hq)]
    simp only [Bool.false_eq_true, if_false]
    rw [travChildren_ok (f := fun c => travOut (d + 1) c)
      (by intro q hq; simpa using hchocc q (by omega))
      (by
        intro c hc a
        obtain ⟨q, hq, hslot⟩ := mem_seg hc
        rw [Nat.zero_add] at hslot
        exact traverse_wf (hchwf q c (by omega) hslot) (d + 1) (le_refl _) a)]
    simp

/-- Characterisation of the slot-moving loop: it empties the source window
`[j+t, j+rem+t)` and copies its former contents into the destination window
`[j, j+rem)`, leaving all other slots of both arrays unchanged. -/
theorem moveLoop_ok {α} :
    ∀ {rem j : Nat} {src dst : List (Option α)} {t : Nat},
      j + rem + t ≤ src.length → j + rem ≤ dst.length →
      ∃ src' dst', moveLoop t rem j src dst = .ok (src', dst') ∧
        src'.length = src.length ∧ dst'.length = dst.length ∧
        (∀ q, q < j + t → src'[q]? = src[q]?) ∧
        (∀ q, j + t ≤ q → q < j + rem + t → src'[q]? = some none) ∧
        (∀ q, j + rem + t ≤ q → src'[q]? = src[q]?) ∧
        (∀ q, q < j → dst'[q]? = dst[q]?) ∧
        (∀ q, j ≤ q → q < j + rem → dst'[q]? = src[q + t]?) ∧
        (∀ q, j + rem ≤ q → dst'[q]? = dst[q]?) := by
  intro rem
  induction rem with
  | zero =>
    intro j src dst t _ _
    exact ⟨src, dst, rfl, rfl, rfl,
      fun q _ => rfl, fun q h1 h2 => by omega, fun q _ => rfl,
      fun q _ => rfl, fun q h1 h2 => by omega, fun q _ => rfl⟩
  | succ rem ih =>
    intro j src dst t hsl hdl
    have hjt : j + t < src.length := by omega
    obtain ⟨o, ho⟩ : ∃ o, src[j + t]? = some o :=
      ⟨src[j + t], List.getElem?_eq_getElem hjt⟩
    have hg : getE src (j + t) = .ok o := getE_ok_iff.mpr ho
    have hs1 : setE src (j + t) none = .ok (src.set (j + t) none) :=
      setE_ok_iff.mpr ⟨hjt, rfl⟩
    have hjd : j < dst.length := by omega
    have hs2 : setE dst j o = .ok (dst.set j o) := setE_ok_iff.mpr ⟨hjd, rfl⟩
    obtain ⟨src', dst', hml, hl1, hl2, ha, hb, hc, hd, he, hf⟩ :=
      @ih (j + 1) (src.set (j + t) none) (dst.set j o) t
        (by simp; omega) (by simp; omega)
    refine ⟨src', dst', ?_, by simp_all, by simp_all, ?_, ?_, ?_, ?_, ?_, ?_⟩
    · simp only [moveLoop, hg, hs1, hs2, hml]
    · intro q hq
      rw [ha q (by omega), List.getElem?_set_ne (by omega)]
    · intro q hq1 hq2
      by_cases hq : q = j + t
      · subst hq
        rw [ha (j + t) (by omega), List.getElem?_set_eq_of_lt none hjt]
      · exact hb q (by omega) (by omega)
    · intro q hq
      rw [hc q (by omega), List.getElem?_set_ne (by omega)]
    · intro q hq
      rw [hd q (by omega), List.getElem?_set_ne (by omega)]
    · intro q hq1 hq2
      by_cases hq : q = j
      · rw [hq, hd j (by omega), List.getElem?_set_eq_of_lt o hjd, ho]
      · rw [he q (by omega) (by omega), List.getElem?_set_ne (by omega)]
    · intro q hq
      rw [hf q (by omega), List.getElem?_set_ne (by omega)]

/-- Characterisation of the child-shifting loop of `split_nodes`
(main.rs 196-200): slots `[pos+2, pos+rem+1]` receive the former contents of
slots `[pos+1, pos+rem]`, slot `pos+1` is vacated when the loop runs at all,
and all other slots are unchanged. -/
theorem shiftChild_ok :
    ∀ {rem pos : Nat} {child : List (Option Node)},
      pos + rem + 2 ≤ child.length →
      ∃ child', shiftChild pos rem child = .ok child' ∧
        child'.length = child.length ∧
        (∀ q, q ≤ pos → child'[q]? = child[q]?) ∧
        (1 ≤ rem → child'[pos + 1]? = some none) ∧
        (rem = 0 → child'[pos + 1]? = child[pos + 1]?) ∧
        (∀ q, pos + 2 ≤ q → q ≤ pos + rem + 1 → child'[q]? = child[q - 1]?) ∧
        (∀ q, pos + rem + 2 ≤ q → child'[q]? = child[q]?) := by
  intro rem
  induction rem with
  | zero =>
    intro pos child _
    exact ⟨child, rfl, rfl, fun q _ => rfl, fun h => by omega,
      fun _ => rfl, fun q h1 h2 => by omega, fun q _ => rfl⟩
  | succ rem ih =>
    intro pos child hlen
    have hj : pos + rem + 1 < child.length := by omega
    obtain ⟨o, ho⟩ : ∃ o, child[pos + rem + 1]? = some o :=
      ⟨child[pos + rem + 1], List.getElem?_eq_getElem hj⟩
    have hg : getE child (pos + rem + 1) = .ok o := getE_ok_iff.mpr ho
    have hs1 : setE child (pos + rem + 1) none =
        .ok (child.set (pos + rem + 1) none) := setE_ok_iff.mpr ⟨hj, rfl⟩
    have hj2 : pos + rem + 1 + 1 < (child.set (pos + rem + 1) none).length := by
      simp; omega
    have hs2 : setE (child.set (pos + rem + 1) none) (pos + rem + 1 + 1) o =
        .ok ((child.set (pos + rem + 1) none).set (pos + rem + 2) o) := by
      rw [setE_ok_iff.mpr ⟨hj2, rfl⟩]
    set child2 := (child.set (pos + rem + 1) none).set (pos + rem + 2) o with hc2
    obtain ⟨child', hrun, hl, ha, hb, hb0, hc, hd⟩ :=
      @ih pos child2 (by simp [hc2]; omega)
    have hget2 : ∀ q, q ≠ pos + rem + 1 → q ≠ pos + rem + 2 →
        child2[q]? = child[q]? := by
      intro q h1 h2
      rw [hc2, List.getElem?_set_ne (by omega), List.getElem?_set_ne (by omega)]
    refine ⟨child', ?_, by rw [hl, hc2]; simp, ?_, ?_, ?_, ?_, ?_⟩
    · simp only [shiftChild, hg, hs1, hs2, hrun]
    · intro q hq
      rw [ha q hq, hget2 q (by omega) (by omega)]
    · intro _
      by_cases hr : 1 ≤ rem
      · exact hb hr
      · have hr0 : rem = 0 := by omega
        rw [hb0 hr0, hc2, List.getElem?_set_ne (by omega)]
        have hidx : pos + rem + 1 = pos + 1 := by omega
        rw [hidx, List.getElem?_set_eq_of_lt none (by omega)]
    · intro h
      omega
    · intro q hq1 hq2
      by_cases hq : q ≤ pos + rem + 1
      · rw [hc q hq1 hq, hget2 (q - 1) (by omega) (by omega)]
      · have hq' : q = pos + rem + 2 := by omega
        subst hq'
        rw [hd (pos + rem + 2) (le_refl _), hc2,
          List.getElem?_set_eq_of_lt o (by simp; omega),
          show pos + rem + 2 - 1 = pos + rem + 1 by omega, ho]
    · intro q hq
      rw [hd q (by omega), hget2 q (by omega) (by omega)]

/-- Characterisation of the key-shifting loop of `split_nodes`
(main.rs 204-208): slots `[pos+1, pos+rem]` receive the former contents of
slots `[pos, pos+rem-1]`, slot `pos` is vacated when the loop runs at all,
and all other slots are unchanged. -/
theorem shiftKeys_ok :
    ∀ {rem pos : Nat} {keys : List (Option Entry)},
      pos + rem + 1 ≤ keys.length →
      ∃ keys', shiftKeys pos rem keys = .ok keys' ∧
        keys'.length = keys.length ∧
        (∀ q, q < pos → keys'[q]? = keys[q]?) ∧
        (1 ≤ rem → keys'[pos]? = some none) ∧
        (rem = 0 → keys'[pos]? = keys[pos]?) ∧
        (∀ q, pos + 1 ≤ q → q ≤ pos + rem → keys'[q]? = keys[q - 1]?) ∧
        (∀ q, pos + rem + 1 ≤ q → keys'[q]? = keys[q]?) := by
  intro rem
  induction rem with
  | zero =>
    intro pos keys _
    exact ⟨keys, rfl, rfl, fun q _ => rfl, fun h => by omega,
      fun _ => rfl, fun q h1 h2 => by omega, fun q _ => rfl⟩
  | succ rem ih =>
    intro pos keys hlen
    have hj : pos + rem < keys.length := by omega
    obtain ⟨o, ho⟩ : ∃ o, keys[pos + rem]? = some o :=
      ⟨keys[pos + rem], List.getElem?_eq_getElem hj⟩
    have hcast : ((pos : Int) + (rem : Int)).toNat = pos + rem := by omega
    have hg : getI keys ((pos : Int) + (rem : Int)) = .ok o := by
      rw [getI, if_neg (by omega), hcast]
      exact getE_ok_iff.mpr ho
    have hs1 : setI keys ((pos : Int) + (rem : Int)) none =
        .ok (keys.set (pos + rem) none) := by
      rw [setI, if_neg (by omega), hcast]
      exact setE_ok_iff.mpr ⟨hj, rfl⟩
    have hcast2 : ((pos : Int) + (rem : Int) + 1).toNat = pos + rem + 1 := by
      omega
    have hs2 : setI (keys.set (pos + rem) none)
        ((pos : Int) + (rem : Int) + 1) o =
        .ok ((keys.set (pos + rem) none).set (pos + rem + 1) o) := by
      rw [setI, if_neg (by omega), hcast2]
      exact setE_ok_iff.mpr ⟨by simp; omega, rfl⟩
    set keys2 := (keys.set (pos + rem) none).set (pos + rem + 1) o with hk2
    obtain ⟨keys', hrun, hl, ha, hb, hb0, hc, hd⟩ :=
      @ih pos keys2 (by simp [hk2]; omega)
    have hget2 : ∀ q, q ≠ pos + rem → q ≠ pos + rem + 1 →
        keys2[q]? = keys[q]? := by
      intro q h1 h2
      rw [hk2, List.getElem?_set_ne (by omega), List.getElem?_set_ne (by omega)]
    refine ⟨keys', ?_, by rw [hl, hk2]; simp, ?_, ?_, ?_, ?_, ?_⟩
    · simp only [shiftKeys, hg, hs1, hs2, hrun]
    · intro q hq
      rw [ha q hq, hget2 q (by omega) (by omega)]
    · intro _
      by_cases hr : 1 ≤ rem
      · exact hb hr
      · have hr0 : rem = 0 := by omega
        rw [hb0 hr0, hk2, List.getElem?_set_ne (by omega)]
        have hidx : pos + rem = pos := by omega
        rw [hidx, List.getElem?_set_eq_of_lt none (by omega)]
    · intro h
      omega
    · intro q hq1 hq2
      by_cases hq : q ≤ pos + rem
      · rw [hc q hq1 hq, hget2 (q - 1) (by omega) (by omega)]
      · have hq' : q = pos + rem + 1 := by omega
        subst hq'
        rw [hd (pos + rem + 1) (le_refl _), hk2,
          List.getElem?_set_eq_of_lt o (by simp; omega),
          show pos + rem + 1 - 1 = pos + rem by omega, ho]
    · intro q hq
      rw [hd q (by omega), hget2 q (by omega) (by omega)]

/-- Characterisation of the shifting scan of the leaf branch of
`insert_non_full` (main.rs 144-147): starting with occupied slots `[0, rem)`
and a free slot at `rem`, it stops at some `jn ≤ rem`, leaving slots
`[0, jn)` unchanged, slot `jn` free, and slots `[jn+1, rem]` holding the
former contents of `[jn, rem-1]`. -/
theorem leafShift_ok {key : Nat} :
    ∀ {rem : Nat} {keys : List (Option Entry)},
      (∀ q, q < rem → ∃ e, keys[q]? = some (some e)) →
      keys[rem]? = some none →
      ∃ keys' jn, jn ≤ rem ∧
        leafShift key rem keys = .ok (keys', (jn : Int) - 1) ∧
        keys'.length = keys.length ∧
        (∀ q, q < jn → keys'[q]? = keys[q]?) ∧
        keys'[jn]? = some none ∧
        (∀ q, jn + 1 ≤ q → q ≤ rem → keys'[q]? = keys[q - 1]?) ∧
        (∀ q, rem + 1 ≤ q → keys'[q]? = keys[q]?) := by
  intro rem
  induction rem with
  | zero =>
    intro keys _ hfree
    exact ⟨keys, 0, le_refl 0, by simp [leafShift], rfl, fun q hq => by omega,
      hfree, fun q h1 h2 => by omega, fun q _ => rfl⟩
  | succ rem ih =>
    intro keys hocc hfree
    obtain ⟨e, he⟩ := hocc rem (by omega)
    have hrlen : rem < keys.length := (List.getElem?_eq_some.mp he).1
    have hrlen1 : rem + 1 < keys.length := (List.getElem?_eq_some.mp hfree).1
    have hg : getI keys (rem : Int) = .ok (some e) := by
      rw [getI, if_neg (by omega), Int.toNat_natCast]
      exact getE_ok_iff.mpr he
    by_cases hgt : e.key > key
    · have hs1 : setI keys (rem : Int) none = .ok (keys.set rem none) := by
        rw [setI, if_neg (by omega), Int.toNat_natCast]
        exact setE_ok_iff.mpr ⟨hrlen, rfl⟩
      have hcast : ((rem : Int) + 1).toNat = rem + 1 := by omega
      have hs2 : setI (keys.set rem none) ((rem : Int) + 1) (some e) =
          .ok ((keys.set rem none).set (rem + 1) (some e)) := by
        rw [setI, if_neg (by omega), hcast]
        exact setE_ok_iff.mpr ⟨by simp; omega, rfl⟩
      set keys2 := (keys.set rem none).set (rem + 1) (some e) with hk2
      have hocc2 : ∀ q, q < rem → ∃ e', keys2[q]? = some (some e') := by
        intro q hq
        rw [hk2, List.getElem?_set_ne (by omega),
          List.getElem?_set_ne (by omega)]
        exact hocc q (by omega)
      have hfree2 : keys2[rem]? = some none := by
        rw [hk2, List.getElem?_set_ne (by omega),
          List.getElem?_set_eq_of_lt none hrlen]
      obtain ⟨keys', jn, hjn, hrun, hl, ha, hb, hc, hd⟩ := ih hocc2 hfree2
      have hget2 : ∀ q, q ≠ rem → q ≠ rem + 1 → keys2[q]? = keys[q]? := by
        intro q h1 h2
        rw [hk2, List.getElem?_set_ne (by omega),
          List.getElem?_set_ne (by omega)]
      refine ⟨keys', jn, by omega, ?_, by rw [hl, hk2]; simp, ?_, hb, ?_, ?_⟩
      · simp only [leafShift, hg, unwrapO, if_pos hgt, hs1, hs2, hrun]
      · intro q hq
        rw [ha q hq, hget2 q (by omega) (by omega)]
      · intro q hq1 hq2
        by_cases hq : q ≤ rem
        · rw [hc q hq1 hq, hget2 (q - 1) (by omega) (by omega)]
        · have hq' : q = rem + 1 := by omega
          subst hq'
          rw [hd (rem + 1) (le_refl _), hk2,
            List.getElem?_set_eq_of_lt (some e) (by simp; omega),
            show rem + 1 - 1 = rem by omega, he]
      · intro q hq
        rw [hd q (by omega), hget2 q (by omega) (by omega)]
    · refine ⟨keys, rem + 1, le_refl _, ?_, rfl, fun q _ => rfl, hfree,
        fun q h1 h2 => by omega, fun q _ => rfl⟩
      simp only [leafShift, hg, unwrapO, if_neg hgt]
      simp

/-- Traversal output of an internal-shaped node whose key slots `[0, n)` and
child slots `[0, n]` are occupied with well-formed subtrees of depth `dd`
(the node itself need not satisfy the `n ≥ 1` of `WFNode`). -/
theorem travOut_expr {t dd n : Nat} {keys : List (Option Entry)}
    {child : List (Option Node)}
    (hkocc : ∀ q, q < n → ∃ e, keys[q]? = some (some e))
    (hchocc : ∀ q, q ≤ n → ∃ c, child[q]? = some (some c))
    (hchwf : ∀ q c, q ≤ n → child[q]? = some (some c) → WFNode t dd c) :
    travOut (dd + 2) (Node.mk t n false keys child) =
      seg keys 0 n ++
        (seg child 0 (n + 1)).flatMap (fun c => travOut (dd + 1) c) := by
  rw [travOut]
  simp only [Node.traverse, Node.keys, Node.n, Node.leaf, Node.child]
  rw [pushOwn_ok (by intro q hq; simpa using hkocc q hq)]
  simp only [Bool.false_eq_true, if_false]
  rw [travChildren_ok (f := fun c => travOut (dd + 1) c)
    (by intro q hq; simpa using hchocc q (by omega))
    (by
      intro c hc a
      obtain ⟨q, hq, hslot⟩ := mem_seg hc
      rw [Nat.zero_add] at hslot
      exact traverse_wf (hchwf q c (by omega) hslot) (dd + 1) (le_refl _) a)]
  simp

/-- Decomposing a window `[0, n]` of slots at an occupied slot `s`. -/
theorem seg_decomp_at {l : List (Option α)} {s n : Nat} {x : α}
    (hs : s ≤ n) (hsl : l[s]? = some (some x)) :
    seg l 0 (n + 1) = seg l 0 s ++ [x] ++ seg l (s + 1) (n - s) := by
  rw [show n + 1 = s + (1 + (n - s)) by omega, seg_split l s 0 (1 + (n - s)),
    seg_split l 1 (0 + s) (n - s), show (0 : Nat) + s = s by omega,
    seg_one_occupied hsl]
  simp [List.append_assoc]

/-- Decomposing a window `[0, n]` of slots after overwriting slot `s ≤ n`
with an occupied value. -/
theorem seg_set_middle {l : List (Option α)} {s n : Nat} {x : α}
    (hs : s ≤ n) (hlen : s < l.length) :
    seg (l.set s (some x)) 0 (n + 1) =
      seg l 0 s ++ [x] ++ seg l (s + 1) (n - s) := by
  have h1 : seg (l.set s (some x)) 0 s = seg l 0 s :=
    seg_congr (fun q hq => List.getElem?_set_ne (by omega))
  have h2 : seg (l.set s (some x)) (s + 1) (n - s) = seg l (s + 1) (n - s) :=
    seg_congr (fun q hq => List.getElem?_set_ne (by omega))
  rw [seg_decomp_at hs (by rw [List.getElem?_set_eq_of_lt _ hlen]), h1, h2]

/-- Replacing the child at an occupied slot `s ≤ n` of a well-formed internal
node by a well-formed subtree whose traversal output gains exactly one entry
`x` keeps the node well-formed and makes the node's traversal output gain
exactly `x`. -/
theorem travOut_set_child {t d n : Nat} {keys : List (Option Entry)}
    {child : List (Option Node)} {s : Nat} {c c' : Node} {x : Entry}
    (h : WFNode t (d + 1) (Node.mk t n false keys child))
    (hs : s ≤ n) (hc : child[s]? = some (some c))
    (hwfc' : WFNode t d c')
    (hperm : List.Perm (travOut (d + 1) c') (x :: travOut (d + 1) c)) :
    WFNode t (d + 1) (Node.mk t n false keys (child.set s (some c'))) ∧
    List.Perm
      (travOut (d + 2) (Node.mk t n false keys (child.set s (some c'))))
      (x :: travOut (d + 2) (Node.mk t n false keys child)) := by
  cases h with
  | internal _ _ _ _ h1 h2 hkl hcl hocc hkempty hchocc hchwf hchempty =>
    have hslen : s < child.length := (List.getElem?_eq_some.mp hc).1
    have hchocc' : ∀ q, q ≤ n → ∃ cc, (child.set s (some c'))[q]? =
        some (some cc) := by
      intro q hq
      by_cases hqs : q = s
      · subst hqs
        exact ⟨c', by rw [List.getElem?_set_eq_of_lt _ hslen]⟩
      · obtain ⟨cc, hcc⟩ := hchocc q hq
        exact ⟨cc, by rw [List.getElem?_set_ne (by omega)]; exact hcc⟩
    have hchwf' : ∀ q cc, q ≤ n → (child.set s (some c'))[q]? =
        some (some cc) → WFNode t d cc := by
      intro q cc hq hcc
      by_cases hqs : q = s
      · subst hqs
        rw [List.getElem?_set_eq_of_lt _ hslen] at hcc
        cases hcc
        exact hwfc'
      · rw [List.getElem?_set_ne (by omega)] at hcc
        exact hchwf q cc hq hcc
    constructor
    · exact WFNode.internal d n keys (child.set s (some c')) h1 h2 hkl
        (by simpa using hcl) hocc hkempty hchocc' hchwf'
        (by
          intro q hq1 hq2
          rw [List.getElem?_set_ne (by omega)]
          exact hchempty q hq1 hq2)
    · rw [travOut_expr hocc hchocc' hchwf', travOut_expr hocc hchocc hchwf,
        seg_set_middle hs hslen, seg_decomp_at hs hc]
      simp only [List.flatMap_append, List.flatMap_cons, List.flatMap_nil,
        List.append_nil, List.flatMap_singleton]
      rw [List.perm_iff_count]
      intro y
      have hcnt := List.perm_iff_count.mp hperm y
      simp only [List.count_append, List.count_cons] at hcnt ⊢
      omega

/-- Correctness of `split_nodes` at its only call shapes (`pos = childIndex`,
full child, parent with room): it succeeds, produces a well-formed node with
one more entry whose traversal output is a permutation of the original, and
places the promoted median at key slot `pos`, the trimmed lower half at child
slot `pos`, and the new upper half at child slot `pos + 1`. -/
theorem split_nodes_ok {t d n pos : Nat} {keys : List (Option Entry)}
    {child : List (Option Node)} {y : Node}
    (ht : 2 ≤ t)
    (hkl : keys.length = 2 * t - 1) (hcl : child.length = 2 * t)
    (hroom : n ≤ 2 * t - 2) (hpos : pos ≤ n)
    (hys : child[pos]? = some (some y)) (hyfull : y.n = 2 * t - 1)
    (hkocc : ∀ q, q < n → ∃ e, keys[q]? = some (some e))
    (hkempty : ∀ q, n ≤ q → q < 2 * t - 1 → keys[q]? = some none)
    (hchocc : ∀ q, q ≤ n → ∃ c, child[q]? = some (some c))
    (hchwf : ∀ q c, q ≤ n → child[q]? = some (some c) → WFNode t d c)
    (hchempty : ∀ q, n + 1 ≤ q → q < 2 * t → child[q]? = some none) :
    ∃ keys2 child3 y1 zz med,
      (Node.mk t n false keys child).split_nodes pos pos =
        .ok (Node.mk t (n + 1) false keys2 child3) ∧
      WFNode t (d + 1) (Node.mk t (n + 1) false keys2 child3) ∧
      List.Perm (travOut (d + 2) (Node.mk t (n + 1) false keys2 child3))
        (travOut (d + 2) (Node.mk t n false keys child)) ∧
      (∀ q, q < pos → keys2[q]? = keys[q]?) ∧
      keys2[pos]? = some (some med) ∧
      child3[pos]? = some (some y1) ∧
      child3[pos + 1]? = some (some zz) ∧
      y1.n = t - 1 ∧ zz.n = t - 1 ∧
      WFNode t d y1 ∧ WFNode t d zz := by
  have hywf : WFNode t d y := hchwf pos y hpos hys
  suffices hpre : ∃ (y1 zz : Node) (med : Entry),
      (Node.mk t n false keys child).split_nodes pos pos =
        (match setE child pos (some y1) with
         | .error e => .error e
         | .ok child1 =>
           match shiftChild pos (n - pos) child1 with
           | .error e => .error e
           | .ok child2 =>
             match setE child2 (pos + 1) (some zz) with
             | .error e => .error e
             | .ok child3 =>
               match shiftKeys pos (n - pos) keys with
               | .error e => .error e
               | .ok keys1 =>
                 match setE keys1 pos (some med) with
                 | .error e => .error e
                 | .ok keys2 => .ok (Node.mk t (n + 1) false keys2 child3)) ∧
      WFNode t d y1 ∧ WFNode t d zz ∧ y1.n = t - 1 ∧ zz.n = t - 1 ∧
      List.Perm (travOut (d + 1) y1 ++ med :: travOut (d + 1) zz)
        (travOut (d + 1) y) by
    obtain ⟨y1, zz, med, hrun, hwy1, hwzz, hn1, hn2, hpm⟩ := hpre
    have hposlen : pos < child.length := by omega
    have hsete1 : setE child pos (some y1) = .ok (child.set pos (some y1)) :=
      setE_ok_iff.mpr ⟨hposlen, rfl⟩
    obtain ⟨child2, hsc, hscl, hscA, hscB, hscB0, hscC, hscD⟩ :=
      @shiftChild_ok (n - pos) pos (child.set pos (some y1))
        (by simp; omega)
    have hsete2 : setE child2 (pos + 1) (some zz) =
        .ok (child2.set (pos + 1) (some zz)) :=
      setE_ok_iff.mpr ⟨by rw [hscl]; simp; omega, rfl⟩
    obtain ⟨keys1, hsk, hskl, hskA, hskB, hskB0, hskC, hskD⟩ :=
      @shiftKeys_ok (n - pos) pos keys (by omega)
    have hsete3 : setE keys1 pos (some med) =
        .ok (keys1.set pos (some med)) :=
      setE_ok_iff.mpr ⟨by rw [hskl]; omega, rfl⟩
    set keys2 := keys1.set pos (some med) with hkeys2
    set child3 := child2.set (pos + 1) (some zz) with hchild3
    -- index maps of the result arrays
    have hk2A : ∀ q, q < pos → keys2[q]? = keys[q]? := by
      intro q hq
      rw [hkeys2, List.getElem?_set_ne (by omega), hskA q hq]
    have hk2pos : keys2[pos]? = some (some med) := by
      rw [hkeys2, List.getElem?_set_eq_of_lt _ (by rw [hskl]; omega)]
    have hk2B : ∀ q, pos + 1 ≤ q → q ≤ n → keys2[q]? = keys[q - 1]? := by
      intro q hq1 hq2
      rw [hkeys2, List.getElem?_set_ne (by omega), hskC q hq1 (by omega)]
    have hk2D : ∀ q, n + 1 ≤ q → q < 2 * t - 1 → keys2[q]? = some none := by
      intro q hq1 hq2
      rw [hkeys2, List.getElem?_set_ne (by omega), hskD q (by omega)]
      exact hkempty q (by omega) hq2
    have hc3A : ∀ q, q < pos → child3[q]? = child[q]? := by
      intro q hq
      rw [hchild3, List.getElem?_set_ne (by omega), hscA q (by omega),
        List.getElem?_set_ne (by omega)]
    have hc3pos : child3[pos]? = some (some y1) := by
      rw [hchild3, List.getElem?_set_ne (by omega), hscA pos (le_refl _),
        List.getElem?_set_eq_of_lt _ hposlen]
    have hc3pos1 : child3[pos + 1]? = some (some zz) := by
      rw [hchild3, List.getElem?_set_eq_of_lt _ (by rw [hscl]; simp; omega)]
    have hc3B : ∀ q, pos + 2 ≤ q → q ≤ n + 1 → child3[q]? = child[q - 1]? := by
      intro q hq1 hq2
      rw [hchild3, List.getElem?_set_ne (by omega), hscC q hq1 (by omega),
        List.getElem?_set_ne (by omega)]
    have hc3D : ∀ q, n + 2 ≤ q → q < 2 * t → child3[q]? = some none := by
      intro q hq1 hq2
      rw [hchild3, List.getElem?_set_ne (by omega), hscD q (by omega),
        List.getElem?_set_ne (by omega)]
      exact hchempty q (by omega) hq2
    -- occupancy of the result
    have hk2occ : ∀ q, q < n + 1 → ∃ e, keys2[q]? = some (some e) := by
      intro q hq
      by_cases h1 : q < pos
      · obtain ⟨e, he⟩ := hkocc q (by omega)
        exact ⟨e, by rw [hk2A q h1]; exact he⟩
      · by_cases h2 : q = pos
        · exact ⟨med, by rw [h2]; exact hk2pos⟩
        · obtain ⟨e, he⟩ := hkocc (q - 1) (by omega)
          exact ⟨e, by rw [hk2B q (by omega) (by omega)]; exact he⟩
    have hc3occ : ∀ q, q ≤ n + 1 → ∃ c, child3[q]? = some (some c) := by
      intro q hq
      by_cases h1 : q < pos
      · obtain ⟨c, hc⟩ := hchocc q (by omega)
        exact ⟨c, by rw [hc3A q h1]; exact hc⟩
      · by_cases h2 : q = pos
        · exact ⟨y1, by rw [h2]; exact hc3pos⟩
        · by_cases h3 : q = pos + 1
          · exact ⟨zz, by rw [h3]; exact hc3pos1⟩
          · obtain ⟨c, hc⟩ := hchocc (q - 1) (by omega)
            exact ⟨c, by rw [hc3B q (by omega) (by omega)]; exact hc⟩
    have hc3wf : ∀ q c, q ≤ n + 1 → child3[q]? = some (some c) →
        WFNode t d c := by
      intro q c hq hcq
      by_cases h1 : q < pos
      · rw [hc3A q h1] at hcq
        exact hchwf q c (by omega) hcq
      · by_cases h2 : q = pos
        · rw [h2, hc3pos] at hcq
          cases hcq
          exact hwy1
        · by_cases h3 : q = pos + 1
          · rw [h3, hc3pos1] at hcq
            cases hcq
            exact hwzz
          · rw [hc3B q (by omega) (by omega)] at hcq
            exact hchwf (q - 1) c (by omega) hcq
    have hwf' : WFNode t (d + 1) (Node.mk t (n + 1) false keys2 child3) :=
      WFNode.internal d (n + 1) keys2 child3 (by omega) (by omega)
        (by rw [hkeys2]; simp [hskl, hkl])
        (by rw [hchild3]; simp [hscl, hcl])
        hk2occ (fun q h1 h2 => hk2D q h1 h2) hc3occ hc3wf
        (fun q h1 h2 => hc3D q h1 h2)
    refine ⟨keys2, child3, y1, zz, med, ?_, hwf', ?_, hk2A, hk2pos,
      hc3pos, hc3pos1, hn1, hn2, hwy1, hwzz⟩
    · rw [hrun]
      simp only [hsete1, hsc, hsete2, hsk, hsete3]
    · -- permutation of traversal outputs
      rw [travOut_expr hk2occ hc3occ hc3wf, travOut_expr hkocc hchocc hchwf]
      have hK : seg keys2 0 (n + 1) =
          seg keys 0 pos ++ [med] ++ seg keys pos (n - pos) := by
        rw [seg_decomp_at hpos hk2pos]
        have e1 : seg keys2 0 pos = seg keys 0 pos :=
          seg_congr (fun q hq => by simpa using hk2A q (by omega))
        have e2 : seg keys2 (pos + 1) (n - pos) = seg keys pos (n - pos) := by
          refine seg_congr (fun q hq => ?_)
          rw [show pos + 1 + q = (pos + q) + 1 by omega,
            hk2B ((pos + q) + 1) (by omega) (by omega)]
          simp
        rw [e1, e2]
      have hKsplit := seg_split keys pos 0 (n - pos)
      rw [show pos + (n - pos) = n by omega, Nat.zero_add] at hKsplit
      have hCnew : seg child3 0 (n + 2) =
          seg child 0 pos ++ [y1] ++
            (zz :: seg child (pos + 1) (n - pos)) := by
        rw [show n + 2 = (n + 1) + 1 by omega,
          seg_decomp_at (by omega : pos ≤ n + 1) hc3pos]
        have e1 : seg child3 0 pos = seg child 0 pos :=
          seg_congr (fun q hq => by simpa using hc3A q (by omega))
        have e2 : seg child3 (pos + 1) (n + 1 - pos) =
            zz :: seg child (pos + 1) (n - pos) := by
          rw [show n + 1 - pos = (n - pos) + 1 by omega]
          simp only [seg, hc3pos1]
          have e3 : seg child3 (pos + 1 + 1) (n - pos) =
              seg child (pos + 1) (n - pos) := by
            refine seg_congr (fun q hq => ?_)
            rw [show pos + 1 + 1 + q = ((pos + 1) + q) + 1 by omega,
              hc3B (((pos + 1) + q) + 1) (by omega) (by omega)]
            simp
          rw [e3]
          simp
        rw [e1, e2]
      have hCold : seg child 0 (n + 1) =
          seg child 0 pos ++ [y] ++ seg child (pos + 1) (n - pos) :=
        seg_decomp_at hpos hys
      rw [hK, hKsplit, hCnew, hCold]
      rw [List.perm_iff_count]
      intro a
      have hcnt := List.perm_iff_count.mp hpm a
      simp only [List.count_append, List.count_cons, List.count_nil] at hcnt
      simp only [List.flatMap_append, List.flatMap_cons, List.flatMap_nil,
        List.append_nil, List.count_append, List.count_cons, List.count_nil]
      omega
  · -- the two phase-one cases, by the shape of the full child `y`
    cases hywf with
    | leaf yn ykeys ychild hy1 hy2 hykl hycl hyocc hykempty hychempty =>
      simp only [Node.n] at hyfull
      subst hyfull
      have hgy : getE child pos =
          .ok (some (Node.mk t (2 * t - 1) true ykeys ychild)) :=
        getE_ok_iff.mpr hys
      obtain ⟨ykeys0, zkeys1, hmv, hmvl1, hmvl2, hmvA, hmvB, hmvC, hmvD,
          hmvE, hmvF⟩ :=
        @moveLoop_ok Entry (t - 1) 0 ykeys (List.replicate (2 * t - 1) none) t
          (by omega) (by simp; omega)
      obtain ⟨med, hmed⟩ := hyocc (t - 1) (by omega)
      have hmed0 : ykeys0[t - 1]? = some (some med) := by
        rw [hmvA (t - 1) (by omega)]
        exact hmed
      have hgmed : getE ykeys0 (t - 1) = .ok (some med) :=
        getE_ok_iff.mpr hmed0
      have hsmed : setE ykeys0 (t - 1) none =
          .ok (ykeys0.set (t - 1) none) :=
        setE_ok_iff.mpr ⟨by rw [hmvl1]; omega, rfl⟩
      set ykeys1 := ykeys0.set (t - 1) none with hyk1
      have hy1occ : ∀ q, q < t - 1 → ∃ e, ykeys1[q]? = some (some e) := by
        intro q hq
        rw [hyk1, List.getElem?_set_ne (by omega), hmvA q (by omega)]
        exact hyocc q (by omega)
      have hy1empty : ∀ q, t - 1 ≤ q → q < 2 * t - 1 →
          ykeys1[q]? = some none := by
        intro q hq1 hq2
        by_cases hq : q = t - 1
        · rw [hyk1, hq, List.getElem?_set_eq_of_lt none (by rw [hmvl1]; omega)]
        · rw [hyk1, List.getElem?_set_ne (by omega), hmvB q (by omega)
            (by omega)]
      have hzocc : ∀ q, q < t - 1 → ∃ e, zkeys1[q]? = some (some e) := by
        intro q hq
        rw [hmvE q (by omega) (by omega)]
        exact hyocc (q + t) (by omega)
      have hzempty : ∀ q, t - 1 ≤ q → q < 2 * t - 1 →
          zkeys1[q]? = some none := by
        intro q hq1 hq2
        rw [hmvF q (by omega), List.getElem?_replicate]
        simp [hq2]
      have hwy1 : WFNode t 0 (Node.mk t (t - 1) true ykeys1 ychild) :=
        WFNode.leaf (t - 1) ykeys1 ychild (by omega) (by omega)
          (by rw [hyk1]; simp [hmvl1, hykl]) hycl hy1occ hy1empty hychempty
      have hwzz : WFNode t 0
          (Node.mk t (t - 1) true zkeys1 (List.replicate (2 * t) none)) :=
        WFNode.leaf (t - 1) zkeys1 (List.replicate (2 * t) none) (by omega)
          (by omega) (by rw [hmvl2]; simp) (by simp) hzocc hzempty
          (by intro q hq; rw [List.getElem?_replicate]; simp [hq])
      refine ⟨Node.mk t (t - 1) true ykeys1 ychild,
        Node.mk t (t - 1) true zkeys1 (List.replicate (2 * t) none), med,
        ?_, hwy1, hwzz, rfl, rfl, ?_⟩
      · simp only [Node.split_nodes, Node.child, Node.t, Node.keys, Node.n,
          Node.leaf, Node.new, hgy, unwrapO, hmv, if_true, hgmed, hsmed]
      · rw [travOut_leaf hwy1, travOut_leaf hwzz,
          travOut_leaf (hchwf pos _ hpos hys)]
        have hky : seg ykeys 0 (2 * t - 1) =
            seg ykeys 0 (t - 1) ++ [med] ++ seg ykeys t (t - 1) := by
          rw [show 2 * t - 1 = (2 * t - 2) + 1 by omega,
            seg_decomp_at (by omega : t - 1 ≤ 2 * t - 2) hmed,
            show t - 1 + 1 = t by omega, show 2 * t - 2 - (t - 1) = t - 1
              by omega]
        have e1 : seg ykeys1 0 (t - 1) = seg ykeys 0 (t - 1) := by
          refine seg_congr (fun q hq => ?_)
          rw [Nat.zero_add, hyk1, List.getElem?_set_ne (by omega),
            hmvA q (by omega)]
        have e2 : seg zkeys1 0 (t - 1) = seg ykeys t (t - 1) := by
          refine seg_congr (fun q hq => ?_)
          rw [Nat.zero_add, hmvE q (by omega) (by omega), Nat.add_comm q t]
        rw [hky, e1, e2]
        rw [List.perm_iff_count]
        intro a
        simp only [List.count_append, List.count_cons, List.count_nil]
        omega
    | internal dc yn ykeys ychild hy1 hy2 hykl hycl hyocc hykempty hychocc
        hychwf hychempty =>
      simp only [Node.n] at hyfull
      subst hyfull
      have hgy : getE child pos =
          .ok (some (Node.mk t (2 * t - 1) false ykeys ychild)) :=
        getE_ok_iff.mpr hys
      obtain ⟨ykeys0, zkeys1, hmv, hmvl1, hmvl2, hmvA, hmvB, hmvC, hmvD,
          hmvE, hmvF⟩ :=
        @moveLoop_ok Entry (t - 1) 0 ykeys (List.replicate (2 * t - 1) none) t
          (by omega) (by simp; omega)
      obtain ⟨ychild0, zchild1, hmc, hmcl1, hmcl2, hmcA, hmcB, hmcC, hmcD,
          hmcE, hmcF⟩ :=
        @moveLoop_ok Node t 0 ychild (List.replicate (2 * t) none) t
          (by omega) (by simp; omega)
      obtain ⟨med, hmed⟩ := hyocc (t - 1) (by omega)
      have hmed0 : ykeys0[t - 1]? = some (some med) := by
        rw [hmvA (t - 1) (by omega)]
        exact hmed
      have hgmed : getE ykeys0 (t - 1) = .ok (some med) :=
        getE_ok_iff.mpr hmed0
      have hsmed : setE ykeys0 (t - 1) none =
          .ok (ykeys0.set (t - 1) none) :=
        setE_ok_iff.mpr ⟨by rw [hmvl1]; omega, rfl⟩
      set ykeys1 := ykeys0.set (t - 1) none with hyk1
      have hy1occ : ∀ q, q < t - 1 → ∃ e, ykeys1[q]? = some (some e) := by
        intro q hq
        rw [hyk1, List.getElem?_set_ne (by omega), hmvA q (by omega)]
        exact hyocc q (by omega)
      have hy1empty : ∀ q, t - 1 ≤ q → q < 2 * t - 1 →
          ykeys1[q]? = some none := by
        intro q hq1 hq2
        by_cases hq : q = t - 1
        · rw [hyk1, hq, List.getElem?_set_eq_of_lt none (by rw [hmvl1]; omega)]
        · rw [hyk1, List.getElem?_set_ne (by omega), hmvB q (by omega)
            (by omega)]
      have hzocc : ∀ q, q < t - 1 → ∃ e, zkeys1[q]? = some (some e) := by
        intro q hq
        rw [hmvE q (by omega) (by omega)]
        exact hyocc (q + t) (by omega)
      have hzempty : ∀ q, t - 1 ≤ q → q < 2 * t - 1 →
          zkeys1[q]? = some none := by
        intro q hq1 hq2
        rw [hmvF q (by omega), List.getElem?_replicate]
        simp [hq2]
      have hyc0occ : ∀ q, q ≤ t - 1 → ∃ c, ychild0[q]? = some (some c) := by
        intro q hq
        rw [hmcA q (by omega)]
        exact hychocc q (by omega)
      have hyc0wf : ∀ q c, q ≤ t - 1 → ychild0[q]? = some (some c) →
          WFNode t dc c := by
        intro q c hq hcq
        rw [hmcA q (by omega)] at hcq
        exact hychwf q c (by omega) hcq
      have hyc0empty : ∀ q, t - 1 + 1 ≤ q → q < 2 * t →
          ychild0[q]? = some none := by
        intro q hq1 hq2
        exact hmcB q (by omega) (by omega)
      have hzc1occ : ∀ q, q ≤ t - 1 → ∃ c, zchild1[q]? = some (some c) := by
        intro q hq
        rw [hmcE q (by omega) (by omega)]
        exact hychocc (q + t) (by omega)
      have hzc1wf : ∀ q c, q ≤ t - 1 → zchild1[q]? = some (some c) →
          WFNode t dc c := by
        intro q c hq hcq
        rw [hmcE q (by omega) (by omega)] at hcq
        exact hychwf (q + t) c (by omega) hcq
      have hzc1empty : ∀ q, t - 1 + 1 ≤ q → q < 2 * t →
          zchild1[q]? = some none := by
        intro q hq1 hq2
        rw [hmcF q (by omega), List.getElem?_replicate]
        simp [hq2]
      have hwy1 : WFNode t (dc + 1)
          (Node.mk t (t - 1) false ykeys1 ychild0) :=
        WFNode.internal dc (t - 1) ykeys1 ychild0 (by omega) (by omega)
          (by rw [hyk1]; simp [hmvl1, hykl]) (by rw [hmcl1, hycl])
          hy1occ hy1empty hyc0occ hyc0wf hyc0empty
      have hwzz : WFNode t (dc + 1)
          (Node.mk t (t - 1) false zkeys1 zchild1) :=
        WFNode.internal dc (t - 1) zkeys1 zchild1 (by omega) (by omega)
          (by rw [hmvl2]; simp) (by rw [hmcl2]; simp)
          hzocc hzempty hzc1occ hzc1wf hzc1empty
      refine ⟨Node.mk t (t - 1) false ykeys1 ychild0,
        Node.mk t (t - 1) false zkeys1 zchild1, med, ?_, hwy1, hwzz,
        rfl, rfl, ?_⟩
      · simp only [Node.split_nodes, Node.child, Node.t, Node.keys, Node.n,
          Node.leaf, Node.new, hgy, unwrapO, hmv, hmc, Bool.false_eq_true,
          if_false, hgmed, hsmed]
      · rw [travOut_internal hwy1, travOut_internal hwzz,
          travOut_internal (hchwf pos _ hpos hys)]
        have hky : seg ykeys 0 (2 * t - 1) =
            seg ykeys 0 (t - 1) ++ [med] ++ seg ykeys t (t - 1) := by
          rw [show 2 * t - 1 = (2 * t - 2) + 1 by omega,
            seg_decomp_at (by omega : t - 1 ≤ 2 * t - 2) hmed,
            show t - 1 + 1 = t by omega, show 2 * t - 2 - (t - 1) = t - 1
              by omega]
        have e1 : seg ykeys1 0 (t - 1) = seg ykeys 0 (t - 1) := by
          refine seg_congr (fun q hq => ?_)
          rw [Nat.zero_add, hyk1, List.getElem?_set_ne (by omega),
            hmvA q (by omega)]
        have e2 : seg zkeys1 0 (t - 1) = seg ykeys t (t - 1) := by
          refine seg_congr (fun q hq => ?_)
          rw [Nat.zero_add, hmvE q (by omega) (by omega), Nat.add_comm q t]
        have hcy : seg ychild 0 (2 * t) =
            seg ychild 0 t ++ seg ychild t t := by
          have h := seg_split ychild t 0 t
          rw [Nat.zero_add] at h
          rw [show 2 * t = t + t by omega]
          exact h
        have e3 : seg ychild0 0 (t - 1 + 1) = seg ychild 0 t := by
          rw [show t - 1 + 1 = t by omega]
          refine seg_congr (fun q hq => ?_)
          rw [Nat.zero_add]
          exact hmcA q (by omega)
        have e4 : seg zchild1 0 (t - 1 + 1) = seg ychild t t := by
          rw [show t - 1 + 1 = t by omega]
          refine seg_congr (fun q hq => ?_)
          rw [Nat.zero_add, hmcE q (by omega) (by omega), Nat.add_comm q t]
        rw [show (2 * t - 1) + 1 = 2 * t by omega, hky, e1, e2, hcy, e3, e4]
        simp only [List.flatMap_append]
        rw [List.perm_iff_count]
        intro a
        simp only [List.count_append, List.count_cons, List.count_nil]
        omega

/-- Master lemma for `insert_non_full` on a well-formed non-full subtree:
with any fuel, a failing run never fails by unsigned underflow (the node
count `n ≥ 1` everywhere), and a successful run returns a well-formed
subtree of the same depth whose traversal output gains exactly the inserted
entry. -/
theorem insert_non_full_ok {t : Nat} (ht : 2 ≤ t) :
    ∀ (fuel : Nat) {d : Nat} {nd : Node} {key value : Nat},
      WFNode t d nd → nd.n < 2 * t - 1 →
      (∀ e, Node.insert_non_full fuel nd key value = .error e →
        e ≠ .underflowSub) ∧
      (∀ nd', Node.insert_non_full fuel nd key value = .ok nd' →
        WFNode t d nd' ∧
        List.Perm (travOut (d + 1) nd')
          (⟨key, value⟩ :: travOut (d + 1) nd)) := by
  intro fuel
  induction fuel with
  | zero =>
    intro d nd key value _ _
    constructor
    · intro e he
      simp only [Node.insert_non_full] at he
      cases he
      simp
    · intro nd' h
      simp only [Node.insert_non_full] at h
      cases h
  | succ fuel ih =>
    intro d nd key value hwf hroom
    cases hwf with
    | leaf n keys child h1 h2 hkl hcl hocc hkempty hchempty =>
      simp only [Node.n] at hroom
      obtain ⟨keys', jn, hjn, hrun, hl, hA, hfree, hB, hC⟩ :=
        @leafShift_ok key n keys (fun q hq => hocc q hq)
          (hkempty n (le_refl n) hroom)
      have hseti : setI keys' ((jn : Int) - 1 + 1)
          (some ⟨key, value⟩) = .ok (keys'.set jn (some ⟨key, value⟩)) := by
        rw [setI, if_neg (by omega),
          show ((jn : Int) - 1 + 1).toNat = jn by omega]
        exact setE_ok_iff.mpr ⟨by rw [hl]; omega, rfl⟩
      have hbody : Node.insert_non_full (fuel + 1)
          (Node.mk t n true keys child) key value =
          .ok (Node.mk t (n + 1) true (keys'.set jn (some ⟨key, value⟩))
            child) := by
        simp only [Node.insert_non_full, Node.n, Node.leaf, Node.keys,
          if_neg (show ¬ n = 0 by omega), if_true, hrun, hseti,
          Node.withKeys, Node.withN]
      have hwf' : WFNode t 0 (Node.mk t (n + 1) true
          (keys'.set jn (some ⟨key, value⟩)) child) := by
        refine WFNode.leaf (n + 1) _ child (by omega) (by omega)
          (by simp [hl, hkl]) hcl ?_ ?_ hchempty
        · intro q hq
          by_cases hq1 : q < jn
          · obtain ⟨e, he⟩ := hocc q (by omega)
            refine ⟨e, ?_⟩
            rw [List.getElem?_set_ne (by omega), hA q hq1]
            exact he
          · by_cases hq2 : q = jn
            · refine ⟨⟨key, value⟩, ?_⟩
              rw [hq2, List.getElem?_set_eq_of_lt _ (by rw [hl]; omega)]
            · obtain ⟨e, he⟩ := hocc (q - 1) (by omega)
              refine ⟨e, ?_⟩
              rw [List.getElem?_set_ne (by omega),
                hB q (by omega) (by omega)]
              exact he
        · intro q hq1 hq2
          rw [List.getElem?_set_ne (by omega), hC q (by omega)]
          exact hkempty q (by omega) hq2
      constructor
      · intro e he
        rw [hbody] at he
        cases he
      · intro nd' hok
        rw [hbody] at hok
        cases hok
        refine ⟨hwf', ?_⟩
        rw [travOut_leaf hwf',
          travOut_leaf (WFNode.leaf n keys child h1 h2 hkl hcl hocc
            hkempty hchempty),
          seg_set_middle (by omega) (by rw [hl]; omega)]
        have e1 : seg keys' 0 jn = seg keys 0 jn :=
          seg_congr (fun q hq => by rw [Nat.zero_add]; exact hA q (by omega))
        have e2 : seg keys' (jn + 1) (n - jn) = seg keys jn (n - jn) := by
          refine seg_congr (fun q hq => ?_)
          rw [show jn + 1 + q = (jn + q) + 1 by omega,
            hB ((jn + q) + 1) (by omega) (by omega)]
          simp
        have hsplitk := seg_split keys jn 0 (n - jn)
        rw [show jn + (n - jn) = n by omega, Nat.zero_add] at hsplitk
        rw [e1, e2, hsplitk]
        rw [List.perm_iff_count]
        intro a
        simp only [List.count_append, List.count_cons, List.count_nil]
        omega
    | internal dc n keys child h1 h2 hkl hcl hocc hkempty hchocc hchwf
        hchempty =>
      simp only [Node.n] at hroom
      obtain ⟨jn, hjn, hsd⟩ := @scanDown_ok keys key n (fun q hq => hocc q hq)
      obtain ⟨c, hc⟩ := hchocc jn hjn
      have hcwf : WFNode t dc c := hchwf jn c hjn hc
      have hgc : getI child ((jn : Int) - 1 + 1) = .ok (some c) := by
        rw [getI, if_neg (by omega),
          show ((jn : Int) - 1 + 1).toNat = jn by omega]
        exact getE_ok_iff.mpr hc
      have hcn : c.n ≤ 2 * t - 1 := by
        cases hcwf <;> simp [Node.n] <;> omega
      by_cases hfull : c.n = 2 * t - 1
      · -- the full-child branch: split, then the (buggy) re-compare
        have hfullm : Node.n c = 2 * t - 1 := hfull
        simp only [Node.n] at hfullm
        obtain ⟨keys2, child3, y1, zz, med, hsplit_run, hwf1, hperm1, hk2A,
            hk2pos, hc3pos, hc3pos1, hn1, hn2, hwy1, hwzz⟩ :=
          @split_nodes_ok t dc n jn keys child c ht hkl hcl (by omega) hjn
            hc hfull hocc hkempty hchocc hchwf hchempty
        have htn : ((jn : Int) - 1 + 1).toNat = jn := by omega
        by_cases hjn0 : jn = 0
        · -- scan index was -1: line 159 indexes keys[(-1) as usize]
          have hgm : getI keys2 ((jn : Int) - 1) = .error .oobIndex := by
            rw [getI, if_pos (by omega)]
          have hbody : Node.insert_non_full (fuel + 1)
              (Node.mk t n false keys child) key value =
              .error .oobIndex := by
            simp only [Node.insert_non_full, Node.n, Node.leaf, Node.keys,
              Node.child, Node.t, if_neg (show ¬ n = 0 by omega),
              Bool.false_eq_true, if_false, hsd, hgc, unwrapO,
              if_pos hfullm, htn, hsplit_run, hgm]
          constructor
          · intro e he
            rw [hbody] at he
            cases he
            simp
          · intro nd' hok
            rw [hbody] at hok
            cases hok
        · -- scan index ≥ 0: compare against keys[i] (not the median)
          obtain ⟨ej, hej⟩ := hocc (jn - 1) (by omega)
          have hgm : getI keys2 ((jn : Int) - 1) = .ok (some ej) := by
            rw [getI, if_neg (by omega),
              show ((jn : Int) - 1).toNat = jn - 1 by omega]
            refine getE_ok_iff.mpr ?_
            rw [hk2A (jn - 1) (by omega)]
            exact hej
          by_cases hlt : ej.key < key
          · -- descend into the right half `zz` at child slot jn + 1
            have htn2 : ((jn : Int) - 1 + 1 + 1).toNat = jn + 1 := by omega
            have hgc2 : getI child3 ((jn : Int) - 1 + 1 + 1) =
                .ok (some zz) := by
              rw [getI, if_neg (by omega), htn2]
              exact getE_ok_iff.mpr hc3pos1
            have hzroom : zz.n < 2 * t - 1 := by rw [hn2]; omega
            cases hrec : Node.insert_non_full fuel zz key value with
            | error e' =>
              have hbody : Node.insert_non_full (fuel + 1)
                  (Node.mk t n false keys child) key value = .error e' := by
                simp only [Node.insert_non_full, Node.n, Node.leaf,
                  Node.keys, Node.child, Node.t,
                  if_neg (show ¬ n = 0 by omega), Bool.false_eq_true,
                  if_false, hsd, hgc, unwrapO, if_pos hfullm, htn,
                  hsplit_run, hgm, if_pos hlt, hgc2, hrec]
              constructor
              · intro e he
                rw [hbody] at he
                cases he
                exact (ih hwzz hzroom).1 e' hrec
              · intro nd' hok
                rw [hbody] at hok
                cases hok
            | ok c3 =>
              obtain ⟨hc3wf, hc3perm⟩ := (ih hwzz hzroom).2 c3 hrec
              have hsetc : setI child3 ((jn : Int) - 1 + 1 + 1) (some c3) =
                  .ok (child3.set (jn + 1) (some c3)) := by
                rw [setI, if_neg (by omega), htn2]
                refine setE_ok_iff.mpr ⟨?_, rfl⟩
                have := (List.getElem?_eq_some.mp hc3pos1).1
                omega
              have hbody : Node.insert_non_full (fuel + 1)
                  (Node.mk t n false keys child) key value =
                  .ok (Node.mk t (n + 1) false keys2
                    (child3.set (jn + 1) (some c3))) := by
                simp only [Node.insert_non_full, Node.n, Node.leaf,
                  Node.keys, Node.child, Node.t,
                  if_neg (show ¬ n = 0 by omega), Bool.false_eq_true,
                  if_false, hsd, hgc, unwrapO, if_pos hfullm, htn,
                  hsplit_run, hgm, if_pos hlt, hgc2, hrec, hsetc,
                  Node.withChild]
              constructor
              · intro e he
                rw [hbody] at he
                cases he
              · intro nd' hok
                rw [hbody] at hok
                cases hok
                obtain ⟨hwfr, hpermr⟩ :=
                  travOut_set_child hwf1 (by omega) hc3pos1 hc3wf hc3perm
                exact ⟨hwfr, hpermr.trans (List.Perm.cons _ hperm1)⟩
          · -- descend into the left half `y1` at child slot jn
            have hgc2 : getI child3 ((jn : Int) - 1 + 1) =
                .ok (some y1) := by
              rw [getI, if_neg (by omega), htn]
              exact getE_ok_iff.mpr hc3pos
            have hyroom : y1.n < 2 * t - 1 := by rw [hn1]; omega
            cases hrec : Node.insert_non_full fuel y1 key value with
            | error e' =>
              have hbody : Node.insert_non_full (fuel + 1)
                  (Node.mk t n false keys child) key value = .error e' := by
                simp only [Node.insert_non_full, Node.n, Node.leaf,
                  Node.keys, Node.child, Node.t,
                  if_neg (show ¬ n = 0 by omega), Bool.false_eq_true,
                  if_false, hsd, hgc, unwrapO, if_pos hfullm, htn,
                  hsplit_run, hgm, if_neg hlt, hgc2, hrec]
              constructor
              · intro e he
                rw [hbody] at he
                cases he
                exact (ih hwy1 hyroom).1 e' hrec
              · intro nd' hok
                rw [hbody] at hok
                cases hok
            | ok c3 =>
              obtain ⟨hc3wf, hc3perm⟩ := (ih hwy1 hyroom).2 c3 hrec
              have hsetc : setI child3 ((jn : Int) - 1 + 1) (some c3) =
                  .ok (child3.set jn (some c3)) := by
                rw [setI, if_neg (by omega), htn]
                refine setE_ok_iff.mpr ⟨?_, rfl⟩
                have := (List.getElem?_eq_some.mp hc3pos).1
                omega
              have hbody : Node.insert_non_full (fuel + 1)
                  (Node.mk t n false keys child) key value =
                  .ok (Node.mk t (n + 1) false keys2
                    (child3.set jn (some c3))) := by
                simp only [Node.insert_non_full, Node.n, Node.leaf,
                  Node.keys, Node.child, Node.t,
                  if_neg (show ¬ n = 0 by omega), Bool.false_eq_true,
                  if_false, hsd, hgc, unwrapO, if_pos hfullm, htn,
                  hsplit_run, hgm, if_neg hlt, hgc2, hrec, hsetc,
                  Node.withChild]
              constructor
              · intro e he
                rw [hbody] at he
                cases he
              · intro nd' hok
                rw [hbody] at hok
                cases hok
                obtain ⟨hwfr, hpermr⟩ :=
                  travOut_set_child hwf1 (by omega) hc3pos hc3wf hc3perm
                exact ⟨hwfr, hpermr.trans (List.Perm.cons _ hperm1)⟩
      · -- the non-full-child branch: no split, descend directly
        have hfullm : ¬ Node.n c = 2 * t - 1 := hfull
        simp only [Node.n] at hfullm
        have hcroom : c.n < 2 * t - 1 := by omega
        cases hrec : Node.insert_non_full fuel c key value with
        | error e' =>
          have hbody : Node.insert_non_full (fuel + 1)
              (Node.mk t n false keys child) key value = .error e' := by
            simp only [Node.insert_non_full, Node.n, Node.leaf, Node.keys,
              Node.child, Node.t, if_neg (show ¬ n = 0 by omega),
              Bool.false_eq_true, if_false, hsd, hgc, unwrapO,
              if_neg hfullm, hrec]
          constructor
          · intro e he
            rw [hbody] at he
            cases he
            exact (ih hcwf hcroom).1 e' hrec
          · intro nd' hok
            rw [hbody] at hok
            cases hok
        | ok c3 =>
          obtain ⟨hc3wf, hc3perm⟩ := (ih hcwf hcroom).2 c3 hrec
          have hsetc : setI child ((jn : Int) - 1 + 1) (some c3) =
              .ok (child.set jn (some c3)) := by
            rw [setI, if_neg (by omega),
              show ((jn : Int) - 1 + 1).toNat = jn by omega]
            refine setE_ok_iff.mpr ⟨?_, rfl⟩
            have := (List.getElem?_eq_some.mp hc).1
            omega
          have hbody : Node.insert_non_full (fuel + 1)
              (Node.mk t n false keys child) key value =
              .ok (Node.mk t n false keys (child.set jn (some c3))) := by
            simp only [Node.insert_non_full, Node.n, Node.leaf, Node.keys,
              Node.child, Node.t, if_neg (show ¬ n = 0 by omega),
              Bool.false_eq_true, if_false, hsd, hgc, unwrapO,
              if_neg hfullm, hrec, hsetc, Node.withChild]
          constructor
          · intro e he
            rw [hbody] at he
            cases he
          · intro nd' hok
            rw [hbody] at hok
            cases hok
            exact travOut_set_child
              (WFNode.internal dc n keys child h1 h2 hkl hcl hocc hkempty
                hchocc hchwf hchempty)
              hjn hc hc3wf hc3perm

/-- Master lemma for `BTree::insert` on a well-formed tree whose traversal
multiset is `acc`: with any fuel, a failing run never fails by unsigned
underflow, and a successful run returns a tree of the same degree with a
well-formed root whose traversal multiset is `acc` plus the new entry. -/
theorem BTree_insert_ok {t : Nat} (ht : 2 ≤ t) {fuel : Nat} {tr : BTree}
    {key value : Nat} {acc : List Entry} (htt : tr.t = t)
    (hwf : (tr.root = none ∧ acc = []) ∨
      (∃ d r, tr.root = some r ∧ WFNode t d r ∧
        List.Perm (travOut (d + 1) r) acc)) :
    (∀ e, BTree.insert fuel tr key value = .error e → e ≠ .underflowSub) ∧
    (∀ tr', BTree.insert fuel tr key value = .ok tr' →
      tr'.t = t ∧ ∃ d' r', tr'.root = some r' ∧ WFNode t d' r' ∧
        List.Perm (travOut (d' + 1) r')
          ((⟨key, value⟩ : Entry) :: acc)) := by
  obtain ⟨root, t0⟩ := tr
  have ht0 : t = t0 := htt.symm
  subst ht0
  rcases hwf with ⟨hnone, hacc⟩ | ⟨d, r, hsome, hwfr, hperm⟩
  · -- empty tree: a fresh one-entry leaf becomes the root
    have hroot : root = none := hnone
    subst hroot
    subst hacc
    have hset : setE (List.replicate (2 * t - 1) (none : Option Entry)) 0
        (some ⟨key, value⟩) =
        .ok ((List.replicate (2 * t - 1) (none : Option Entry)).set 0
          (some ⟨key, value⟩)) := by
      rw [setE, if_pos]
      simp
      omega
    have hbody : BTree.insert fuel (⟨none, t⟩ : BTree) key value =
        .ok ⟨some (Node.mk t 1 true
          ((List.replicate (2 * t - 1) (none : Option Entry)).set 0
            (some ⟨key, value⟩))
          (List.replicate (2 * t) (none : Option Node))), t⟩ := by
      simp only [BTree.insert, Node.new, Node.keys, Node.child, hset]
    have hkv : ((List.replicate (2 * t - 1) (none : Option Entry)).set 0
        (some ⟨key, value⟩))[0]? = some (some ⟨key, value⟩) := by
      rw [List.getElem?_set_eq_of_lt]
      simp
      omega
    have hwf1 : WFNode t 0 (Node.mk t 1 true
        ((List.replicate (2 * t - 1) (none : Option Entry)).set 0
          (some ⟨key, value⟩))
        (List.replicate (2 * t) (none : Option Node))) := by
      refine WFNode.leaf 1 _ _ (by omega) (by omega) (by simp)
        (by simp) ?_ ?_ ?_
      · intro i hi
        have hi0 : i = 0 := by omega
        subst hi0
        exact ⟨⟨key, value⟩, hkv⟩
      · intro i hi1 hi2
        rw [List.getElem?_set_ne (by omega), List.getElem?_replicate,
          if_pos hi2]
      · intro i hi
        rw [List.getElem?_replicate, if_pos hi]
    constructor
    · intro e he
      rw [hbody] at he
      cases he
    · intro tr' hok
      rw [hbody] at hok
      cases hok
      refine ⟨rfl, 0, _, rfl, hwf1, ?_⟩
      rw [travOut_leaf hwf1, seg_one_occupied hkv]
  · -- non-empty tree
    have hroot : root = some r := hsome
    subst hroot
    have hle : r.n ≤ 2 * t - 1 := by
      cases hwfr <;> simp [Node.n] <;> omega
    by_cases hfull : r.n = 2 * t - 1
    · -- full root: create a new root, split the old root under it
      have hset1 : setE (List.replicate (2 * t) (none : Option Node)) 0
          (some r) =
          .ok ((List.replicate (2 * t) (none : Option Node)).set 0
            (some r)) := by
        rw [setE, if_pos]
        simp
        omega
      have hys : ((List.replicate (2 * t) (none : Option Node)).set 0
          (some r))[0]? = some (some r) := by
        rw [List.getElem?_set_eq_of_lt]
        simp
        omega
      obtain ⟨keys2, child3, y1, zz, med, hsplit_run, hwf1, hperm1, hk2A,
          hk2pos, hc3pos, hc3pos1, hn1, hn2, hwy1, hwzz⟩ :=
        @split_nodes_ok t d 0 0 (List.replicate (2 * t - 1) none)
          ((List.replicate (2 * t) (none : Option Node)).set 0 (some r)) r
          ht (by simp) (by simp) (by omega) (le_refl 0) hys hfull
          (fun q hq => absurd hq (by omega))
          (fun q hq1 hq2 => by rw [List.getElem?_replicate, if_pos hq2])
          (fun q hq => by
            have hq0 : q = 0 := by omega
            subst hq0
            exact ⟨r, hys⟩)
          (fun q c hq hc => by
            have hq0 : q = 0 := by omega
            subst hq0
            rw [hys] at hc
            cases hc
            exact hwfr)
          (fun q hq1 hq2 => by
            rw [List.getElem?_set_ne (by omega), List.getElem?_replicate,
              if_pos hq2])
      simp only [Nat.zero_add] at hsplit_run hwf1 hperm1 hc3pos1
      have htravpre : Node.traverse (d + 2) (Node.mk t 0 false
          (List.replicate (2 * t - 1) none)
          ((List.replicate (2 * t) (none : Option Node)).set 0 (some r)))
          [] = .ok (travOut (d + 1) r) := by
        simp only [Node.traverse, Node.keys, Node.n, Node.leaf, Node.child]
        rw [pushOwn_ok (fun q hq => absurd hq (by omega))]
        simp only [Bool.false_eq_true, if_false]
        rw [travChildren_ok (f := fun c => travOut (d + 1) c)
          (by
            intro q hq
            have hq0 : q = 0 := by omega
            subst hq0
            exact ⟨r, hys⟩)
          (by
            intro c hc a
            rw [seg_one_occupied hys] at hc
            have hcr : c = r := by simpa using hc
            subst hcr
            exact traverse_wf hwfr (d + 1) (le_refl _) a)]
        rw [seg_one_occupied hys]
        simp [seg]
      have hpre : travOut (d + 2) (Node.mk t 0 false
          (List.replicate (2 * t - 1) none)
          ((List.replicate (2 * t) (none : Option Node)).set 0 (some r))) =
          travOut (d + 1) r := by
        rw [travOut, htravpre]
      rw [hpre] at hperm1
      have hgm : getE keys2 0 = .ok (some med) := getE_ok_iff.mpr hk2pos
      by_cases hlt : med.key < key
      · -- median < key: descend into the right half `zz` (child slot 1)
        have hgc2 : getE child3 1 = .ok (some zz) := getE_ok_iff.mpr hc3pos1
        have hzroom : zz.n < 2 * t - 1 := by
          rw [hn2]
          omega
        cases hrec : Node.insert_non_full fuel zz key value with
        | error e' =>
          have hbody : BTree.insert fuel (⟨some r, t⟩ : BTree) key value =
              .error e' := by
            simp only [BTree.insert, Node.new, Node.keys, Node.child,
              if_pos hfull, hset1, Node.withChild, hsplit_run, hgm,
              unwrapO, if_pos hlt, hgc2, hrec]
          constructor
          · intro e he
            rw [hbody] at he
            cases he
            exact (insert_non_full_ok ht fuel hwzz hzroom).1 e' hrec
          · intro tr' hok
            rw [hbody] at hok
            cases hok
        | ok c1 =>
          obtain ⟨hwfc1, hpermc1⟩ :=
            (insert_non_full_ok ht fuel hwzz hzroom).2 c1 hrec
          have hsetc : setE child3 1 (some c1) =
              .ok (child3.set 1 (some c1)) := by
            rw [setE, if_pos]
            have := (List.getElem?_eq_some.mp hc3pos1).1
            omega
          have hbody : BTree.insert fuel (⟨some r, t⟩ : BTree) key value =
              .ok ⟨some (Node.mk t 1 false keys2
                (child3.set 1 (some c1))), t⟩ := by
            simp only [BTree.insert, Node.new, Node.keys, Node.child,
              if_pos hfull, hset1, Node.withChild, hsplit_run, hgm,
              unwrapO, if_pos hlt, hgc2, hrec, hsetc]
          constructor
          · intro e he
            rw [hbody] at he
            cases he
          · intro tr' hok
            rw [hbody] at hok
            cases hok
            obtain ⟨hwfr', hpermr'⟩ :=
              travOut_set_child hwf1 (by omega) hc3pos1 hwfc1 hpermc1
            refine ⟨rfl, d + 1, _, rfl, hwfr', ?_⟩
            exact hpermr'.trans
              ((List.Perm.cons _ hperm1).trans (List.Perm.cons _ hperm))
      · -- median ≥ key: descend into the left half `y1` (child slot 0)
        have hgc2 : getE child3 0 = .ok (some y1) := getE_ok_iff.mpr hc3pos
        have hyroom : y1.n < 2 * t - 1 := by
          rw [hn1]
          omega
        cases hrec : Node.insert_non_full fuel y1 key value with
        | error e' =>
          have hbody : BTree.insert fuel (⟨some r, t⟩ : BTree) key value =
              .error e' := by
            simp only [BTree.insert, Node.new, Node.keys, Node.child,
              if_pos hfull, hset1, Node.withChild, hsplit_run, hgm,
              unwrapO, if_neg hlt, hgc2, hrec]
          constructor
          · intro e he
            rw [hbody] at he
            cases he
            exact (insert_non_full_ok ht fuel hwy1 hyroom).1 e' hrec
          · intro tr' hok
            rw [hbody] at hok
            cases hok
        | ok c1 =>
          obtain ⟨hwfc1, hpermc1⟩ :=
            (insert_non_full_ok ht fuel hwy1 hyroom).2 c1 hrec
          have hsetc : setE child3 0 (some c1) =
              .ok (child3.set 0 (some c1)) := by
            rw [setE, if_pos]
            have := (List.getElem?_eq_some.mp hc3pos).1
            omega
          have hbody : BTree.insert fuel (⟨some r, t⟩ : BTree) key value =
              .ok ⟨some (Node.mk t 1 false keys2
                (child3.set 0 (some c1))), t⟩ := by
            simp only [BTree.insert, Node.new, Node.keys, Node.child,
              if_pos hfull, hset1, Node.withChild, hsplit_run, hgm,
              unwrapO, if_neg hlt, hgc2, hrec, hsetc]
          constructor
          · intro e he
            rw [hbody] at he
            cases he
          · intro tr' hok
            rw [hbody] at hok
            cases hok
            obtain ⟨hwfr', hpermr'⟩ :=
              travOut_set_child hwf1 (by omega) hc3pos hwfc1 hpermc1
            refine ⟨rfl, d + 1, _, rfl, hwfr', ?_⟩
            exact hpermr'.trans
              ((List.Perm.cons _ hperm1).trans (List.Perm.cons _ hperm))
    · -- non-full root: plain `insert_non_full` into the root
      have hroom : r.n < 2 * t - 1 := by omega
      cases hrec : Node.insert_non_full fuel r key value with
      | error e' =>
        have hbody : BTree.insert fuel (⟨some r, t⟩ : BTree) key value =
            .error e' := by
          simp only [BTree.insert, if_neg hfull, hrec]
        constructor
        · intro e he
          rw [hbody] at he
          cases he
          exact (insert_non_full_ok ht fuel hwfr hroom).1 e' hrec
        · intro tr' hok
          rw [hbody] at hok
          cases hok
      | ok r1 =>
        obtain ⟨hwfr1, hpermr1⟩ :=
          (insert_non_full_ok ht fuel hwfr hroom).2 r1 hrec
        have hbody : BTree.insert fuel (⟨some r, t⟩ : BTree) key value =
            .ok ⟨some r1, t⟩ := by
          simp only [BTree.insert, if_neg hfull, hrec]
        constructor
        · intro e he
          rw [hbody] at he
          cases he
        · intro tr' hok
          rw [hbody] at hok
          cases hok
          exact ⟨rfl, d, r1, rfl, hwfr1,
            hpermr1.trans (List.Perm.cons _ hperm)⟩

/-- Folding `BTree::insert` over a pair list preserves well-formedness, can
never fail by unsigned underflow, and accumulates exactly the inserted
entries in the traversal multiset. -/
theorem foldl_insert_ok {t : Nat} (ht : 2 ≤ t) {fuel : Nat} :
    ∀ (ps : List (Nat × Nat)) (tr0 : BTree) (acc : List Entry),
      tr0.t = t →
      ((tr0.root = none ∧ acc = []) ∨
        (∃ d r, tr0.root = some r ∧ WFNode t d r ∧
          List.Perm (travOut (d + 1) r) acc)) →
      (∀ e, ps.foldlM (fun tr p => BTree.insert fuel tr p.1 p.2) tr0 =
          .error e → e ≠ .underflowSub) ∧
      (∀ tr, ps.foldlM (fun tr p => BTree.insert fuel tr p.1 p.2) tr0 =
          .ok tr →
        tr.t = t ∧
        ((tr.root = none ∧ ps = [] ∧ acc = []) ∨
         (∃ d r, tr.root = some r ∧ WFNode t d r ∧
            List.Perm (travOut (d + 1) r)
              (acc ++ ps.map (fun p => (⟨p.1, p.2⟩ : Entry)))))) := by
  intro ps
  induction ps with
  | nil =>
    intro tr0 acc htt hwf
    constructor
    · intro e he
      simp only [List.foldlM_nil] at he
      cases he
    · intro tr hok
      simp only [List.foldlM_nil] at hok
      cases hok
      refine ⟨htt, ?_⟩
      rcases hwf with ⟨hnone, hacc⟩ | ⟨d, r, hsome, hwfr, hperm⟩
      · exact Or.inl ⟨hnone, rfl, hacc⟩
      · exact Or.inr ⟨d, r, hsome, hwfr, by simpa using hperm⟩
  | cons p ps ih =>
    intro tr0 acc htt hwf
    obtain ⟨hstep1, hstep2⟩ :=
      @BTree_insert_ok t ht fuel tr0 p.1 p.2 acc htt hwf
    constructor
    · intro e he
      simp only [List.foldlM_cons] at he
      cases hins : BTree.insert fuel tr0 p.1 p.2 with
      | error e' =>
        rw [hins] at he
        simp only [Bind.bind, Except.bind] at he
        cases he
        exact hstep1 e hins
      | ok tr1 =>
        rw [hins] at he
        simp only [Bind.bind, Except.bind] at he
        obtain ⟨htt1, d1, r1, hsome1, hwf1, hperm1⟩ := hstep2 tr1 hins
        exact (ih tr1 ((⟨p.1, p.2⟩ : Entry) :: acc) htt1
          (Or.inr ⟨d1, r1, hsome1, hwf1, hperm1⟩)).1 e he
    · intro tr hok
      simp only [List.foldlM_cons] at hok
      cases hins : BTree.insert fuel tr0 p.1 p.2 with
      | error e' =>
        rw [hins] at hok
        simp only [Bind.bind, Except.bind] at hok
        cases hok
      | ok tr1 =>
        rw [hins] at hok
        simp only [Bind.bind, Except.bind] at hok
        obtain ⟨htt1, d1, r1, hsome1, hwf1, hperm1⟩ := hstep2 tr1 hins
        obtain ⟨htt2, hrest⟩ := (ih tr1 ((⟨p.1, p.2⟩ : Entry) :: acc) htt1
          (Or.inr ⟨d1, r1, hsome1, hwf1, hperm1⟩)).2 tr hok
      
        refine ⟨htt2, ?_⟩
        rcases hrest with ⟨_, hps, hacc⟩ | ⟨d2, r2, hsome2, hwf2, hperm2⟩
        · cases hacc
        · refine Or.inr ⟨d2, r2, hsome2, hwf2, ?_⟩
          refine hperm2.trans ?_
          rw [List.perm_iff_count]
          intro a
          simp only [List.count_append, List.count_cons, List.count_nil,
            List.map_cons]
          omega

/-- `insertList` on any degree `t ≥ 2` never fails by unsigned underflow;
when it succeeds, the resulting tree has degree `t` and either is empty
(only for an empty insertion list) or has a well-formed root whose traversal
multiset is exactly the multiset of inserted entries. -/
theorem insertList_ok {t fuel : Nat} {ps : List (Nat × Nat)} (ht : 2 ≤ t) :
    (∀ e, insertList fuel t ps = .error e → e ≠ .underflowSub) ∧
    (∀ tr, insertList fuel t ps = .ok tr →
      tr.t = t ∧
      ((tr.root = none ∧ ps = []) ∨
       (∃ d r, tr.root = some r ∧ WFNode t d r ∧
          List.Perm (travOut (d + 1) r)
            (ps.map (fun p => (⟨p.1, p.2⟩ : Entry)))))) := by
  have hnew : BTree.new t = .ok ⟨none, t⟩ := by
    rw [BTree.new, if_neg (by omega)]
  obtain ⟨h1, h2⟩ := @foldl_insert_ok t ht fuel ps ⟨none, t⟩ []
    rfl (Or.inl ⟨rfl, rfl⟩)
  constructor
  · intro e he
    rw [insertList, hnew] at he
    exact h1 e he
  · intro tr hok
    rw [insertList, hnew] at hok
    obtain ⟨htt, hrest⟩ := h2 tr hok
    refine ⟨htt, ?_⟩
    rcases hrest with ⟨hnone, hps, _⟩ | ⟨d, r, hsome, hwfr, hperm⟩
    · exact Or.inl ⟨hnone, hps⟩
    · exact Or.inr ⟨d, r, hsome, hwfr, by simpa using hperm⟩

/-- `searchDescend` on a leaf always reports "not found" without touching
any child slot. -/
theorem searchDescend_leaf {srch : Node → Except Err (Option Entry)}
    {t n : Nat} {keys : List (Option Entry)} {child : List (Option Node)}
    {i : Nat} :
    searchDescend srch (Node.mk t n true keys child) i = .ok none := by
  rw [searchDescend, if_pos (by simp [Node.leaf])]

/-- `searchDescend` on an internal node with an in-range occupied child slot
descends into that child. -/
theorem searchDescend_internal {srch : Node → Except Err (Option Entry)}
    {t n : Nat} {keys : List (Option Entry)} {child : List (Option Node)}
    {i : Nat} {c : Node} (hlen : i < child.length)
    (hc : child[i]? = some (some c)) :
    searchDescend srch (Node.mk t n false keys child) i = srch c := by
  have hg : getE child i = .ok (some c) := getE_ok_iff.mpr hc
  rw [searchDescend]
  simp only [Node.child, Node.leaf, Bool.or_false, hg, unwrapO,
    decide_eq_true_eq]
  rw [if_neg (by omega)]

/-- The tail of `Node::search` after the scan index is fixed succeeds on a
well-formed node provided the index is at most `n` and every descent into an
occupied child slot succeeds. -/
theorem searchAfter_wf {t d : Nat} {nd : Node} (h : WFNode t d nd)
    {srch : Node → Except Err (Option Entry)} {key : Nat}
    (hsrch : ∀ i c, i ≤ nd.n → nd.child[i]? = some (some c) →
      ∃ res, srch c = .ok res)
    {i : Nat} (hi : i ≤ nd.n) :
    ∃ res, searchAfter srch nd key i = .ok res := by
  cases h with
  | leaf n keys child h1 h2 hkl hcl hocc hkempty hchempty =>
    simp only [Node.n] at hi
    by_cases hin : i < n
    · obtain ⟨e, he⟩ := hocc i hin
      have hg : getE keys i = .ok (some e) := getE_ok_iff.mpr he
      by_cases heq : e.key = key
      · refine ⟨some e, ?_⟩
        rw [searchAfter]
        simp only [Node.n, Node.keys, hg, unwrapO]
        rw [if_pos (by omega), if_pos heq]
      · refine ⟨none, ?_⟩
        rw [searchAfter]
        simp only [Node.n, Node.keys, hg, unwrapO]
        rw [if_pos (by omega), if_neg heq, searchDescend_leaf]
    · refine ⟨none, ?_⟩
      rw [searchAfter]
      simp only [Node.n]
      rw [if_neg (by omega), searchDescend_leaf]
  | internal d n keys child h1 h2 hkl hcl hocc hkempty hchocc hchwf
      hchempty =>
    simp only [Node.n] at hi
    have hlen : ∀ j, j ≤ n → j < child.length := by
      intro j hj
      rw [hcl]
      omega
    by_cases hin : i < n
    · obtain ⟨e, he⟩ := hocc i hin
      have hg : getE keys i = .ok (some e) := getE_ok_iff.mpr he
      by_cases heq : e.key = key
      · refine ⟨some e, ?_⟩
        rw [searchAfter]
        simp only [Node.n, Node.keys, hg, unwrapO]
        rw [if_pos (by omega), if_pos heq]
      · obtain ⟨c, hc⟩ := hchocc i (by omega)
        obtain ⟨res, hres⟩ := hsrch i c (by simp only [Node.n]; omega) hc
        refine ⟨res, ?_⟩
        rw [searchAfter]
        simp only [Node.n, Node.keys, hg, unwrapO]
        rw [if_pos (by omega), if_neg heq,
          searchDescend_internal (hlen i (by omega)) hc, hres]
    · have hieq : i = n := by omega
      subst hieq
      obtain ⟨c, hc⟩ := hchocc i (le_refl _)
      obtain ⟨res, hres⟩ := hsrch i c (by simp only [Node.n]; omega) hc
      refine ⟨res, ?_⟩
      rw [searchAfter]
      simp only [Node.n]
      rw [if_neg (by omega),
        searchDescend_internal (hlen i (le_refl _)) hc, hres]

/-- The binary-search loop over a fully occupied prefix `[0, n)` succeeds
whenever the fuel exceeds the initial interval length, returning either the
sentinel `-1` or an index inside `[0, n)`. -/
theorem bsGo_ok {keys : List (Option Entry)} {key : Nat} {n : Nat}
    (hocc : ∀ q, q < n → ∃ e, keys[q]? = some (some e)) :
    ∀ (fb : Nat) (low high : Int), 0 ≤ low → low - 1 ≤ high →
      high < (n : Int) → high - low + 2 ≤ (fb : Int) →
      ∃ res, bsGo keys key fb low high = .ok res ∧
        (res = -1 ∨ (0 ≤ res ∧ res < (n : Int))) := by
  intro fb
  induction fb with
  | zero =>
    intro low high hlow hba hhigh hlen
    exfalso
    omega
  | succ fb ih =>
    intro low high hlow hba hhigh hlen
    by_cases hc : low ≤ high
    · have hm1 : 0 ≤ low + (high - low) / 2 := by omega
      have hm2 : low + (high - low) / 2 ≤ high := by omega
      obtain ⟨e, he⟩ := hocc (low + (high - low) / 2).toNat (by omega)
      have hg : getI keys (low + (high - low) / 2) = .ok (some e) := by
        rw [getI, if_neg (by omega)]
        exact getE_ok_iff.mpr he
      by_cases he1 : e.key = key
      · refine ⟨low + (high - low) / 2, ?_, Or.inr ⟨by omega, by omega⟩⟩
        simp only [bsGo, if_pos hc, hg, unwrapO, if_pos he1]
      · by_cases he2 : key < e.key
        · obtain ⟨res, hres, hloc⟩ := ih low (low + (high - low) / 2 - 1)
            hlow (by omega) (by omega) (by omega)
          refine ⟨res, ?_, hloc⟩
          simp only [bsGo, if_pos hc, hg, unwrapO, if_neg he1, if_pos he2,
            hres]
        · obtain ⟨res, hres, hloc⟩ := ih (low + (high - low) / 2 + 1) high
            (by omega) (by omega) hhigh (by omega)
          refine ⟨res, ?_, hloc⟩
          simp only [bsGo, if_pos hc, hg, unwrapO, if_neg he1, if_neg he2,
            hres]
    · refine ⟨-1, ?_, Or.inl rfl⟩
      simp only [bsGo, if_neg hc]

/-- `Node::search` succeeds (never panics on an unwrap or an index) on every
well-formed subtree, with fuel linear in the depth: `2d + 1` suffices for a
forced-linear search and `2d + 2` for either mode. -/
theorem search_wf {t key : Nat} :
    ∀ {d : Nat} {nd : Node}, WFNode t d nd →
      ∀ fuel : Nat,
        (2 * d + 1 ≤ fuel →
          ∃ res, Node.search fuel nd key true = .ok res) ∧
        (2 * d + 2 ≤ fuel → ∀ fl,
          ∃ res, Node.search fuel nd key fl = .ok res) := by
  intro d nd h
  induction h with
  | leaf n keys child h1 h2 hkl hcl hocc hkempty hchempty =>
    have hnochild : ∀ (j : Nat) (c : Node), child[j]? = some (some c) → False := by
      intro j c hc
      by_cases hj2 : j < 2 * t
      · rw [hchempty j hj2] at hc
        simp at hc
      · rw [List.getElem?_eq_none (by rw [hcl]; omega)] at hc
        cases hc
    have hAfterOk : ∀ (fl : Bool) (f1 i : Nat), i ≤ n →
        ∃ res, searchAfter (fun c => Node.search f1 c key fl)
          (Node.mk t n true keys child) key i = .ok res := by
      intro fl f1 i hi
      refine searchAfter_wf (WFNode.leaf n keys child h1 h2 hkl hcl hocc
        hkempty hchempty) ?_ hi
      intro j c hj hc
      exact (hnochild j c hc).elim
    have hlinA : ∀ fuel, 1 ≤ fuel →
        ∃ res, Node.search fuel (Node.mk t n true keys child) key true =
          .ok res := by
      intro fuel hf
      obtain ⟨f1, rfl⟩ : ∃ f1, fuel = f1 + 1 := ⟨fuel - 1, by omega⟩
      obtain ⟨j, hj, hj0, hjn⟩ := @linScan_ok keys key n 0
        (by intro q hq; simpa using hocc q hq)
      obtain ⟨res, hres⟩ := hAfterOk true f1 j (by omega)
      refine ⟨res, ?_⟩
      simp only [Node.search, Bool.not_true, Bool.false_and,
        Bool.false_eq_true, if_false, Node.keys, Node.n, hj, hres]
    intro fuel
    constructor
    · intro hf
      exact hlinA fuel (by omega)
    · intro hf fl
      cases fl with
      | true => exact hlinA fuel (by omega)
      | false =>
        obtain ⟨f1, rfl⟩ : ∃ f1, fuel = f1 + 1 := ⟨fuel - 1, by omega⟩
        by_cases hn512 : n > 512
        · have hb : (decide (n > 512)) = true := decide_eq_true hn512
          obtain ⟨bres, hbres, hbloc⟩ := @bsGo_ok keys key n
            (by intro q hq; simpa using hocc q hq) (n + 1) 0 ((n : Int) - 1)
            (by omega) (by omega) (by omega) (by omega)
          rcases hbloc with hneg | ⟨hge, hlt⟩
          · obtain ⟨res, hres⟩ := hlinA f1 (by omega)
            refine ⟨res, ?_⟩
            simp only [Node.search, Bool.not_false, Bool.true_and, hb,
              eq_self_iff_true, if_true, Node.binary_search_keys,
              Node.keys, Node.n, hbres, if_pos hneg, hres]
          · obtain ⟨res, hres⟩ := hAfterOk false f1 bres.toNat (by omega)
            refine ⟨res, ?_⟩
            simp only [Node.search, Bool.not_false, Bool.true_and, hb,
              eq_self_iff_true, if_true, Node.binary_search_keys,
              Node.keys, Node.n, hbres,
              if_neg (show ¬ bres = -1 by omega), hres]
        · have hb : (decide (n > 512)) = false := decide_eq_false hn512
          obtain ⟨j, hj, hj0, hjn⟩ := @linScan_ok keys key n 0
            (by intro q hq; simpa using hocc q hq)
          obtain ⟨res, hres⟩ := hAfterOk false f1 j (by omega)
          refine ⟨res, ?_⟩
          simp only [Node.search, Bool.not_false, Bool.true_and, hb,
            Bool.false_eq_true, if_false, Node.keys, Node.n, hj, hres]
  | internal d n keys child h1 h2 hkl hcl hocc hkempty hchocc hchwf
      hchempty ih =>
    have hAfterOk : ∀ (fl : Bool) (f1 : Nat), 2 * d + 2 ≤ f1 →
        ∀ i, i ≤ n →
        ∃ res, searchAfter (fun c => Node.search f1 c key fl)
          (Node.mk t n false keys child) key i = .ok res := by
      intro fl f1 hf1 i hi
      refine searchAfter_wf (WFNode.internal d n keys child h1 h2 hkl hcl
        hocc hkempty hchocc hchwf hchempty) ?_ hi
      intro j c hj hc
      exact ((ih j c hj hc) f1).2 hf1 fl
    have hlinA : ∀ fuel, 2 * d + 3 ≤ fuel →
        ∃ res, Node.search fuel (Node.mk t n false keys child) key true =
          .ok res := by
      intro fuel hf
      obtain ⟨f1, rfl⟩ : ∃ f1, fuel = f1 + 1 := ⟨fuel - 1, by omega⟩
      obtain ⟨j, hj, hj0, hjn⟩ := @linScan_ok keys key n 0
        (by intro q hq; simpa using hocc q hq)
      obtain ⟨res, hres⟩ := hAfterOk true f1 (by omega) j (by omega)
      refine ⟨res, ?_⟩
      simp only [Node.search, Bool.not_true, Bool.false_and,
        Bool.false_eq_true, if_false, Node.keys, Node.n, hj, hres]
    intro fuel
    constructor
    · intro hf
      exact hlinA fuel (by omega)
    · intro hf fl
      cases fl with
      | true => exact hlinA fuel (by omega)
      | false =>
        obtain ⟨f1, rfl⟩ : ∃ f1, fuel = f1 + 1 := ⟨fuel - 1, by omega⟩
        by_cases hn512 : n > 512
        · have hb : (decide (n > 512)) = true := decide_eq_true hn512
          obtain ⟨bres, hbres, hbloc⟩ := @bsGo_ok keys key n
            (by intro q hq; simpa using hocc q hq) (n + 1) 0 ((n : Int) - 1)
            (by omega) (by omega) (by omega) (by omega)
          rcases hbloc with hneg | ⟨hge, hlt⟩
          · obtain ⟨res, hres⟩ := hlinA f1 (by omega)
            refine ⟨res, ?_⟩
            simp only [Node.search, Bool.not_false, Bool.true_and, hb,
              eq_self_iff_true, if_true, Node.binary_search_keys,
              Node.keys, Node.n, hbres, if_pos hneg, hres]
          · obtain ⟨res, hres⟩ := hAfterOk false f1 (by omega) bres.toNat
              (by omega)
            refine ⟨res, ?_⟩
            simp only [Node.search, Bool.not_false, Bool.true_and, hb,
              eq_self_iff_true, if_true, Node.binary_search_keys,
              Node.keys, Node.n, hbres,
              if_neg (show ¬ bres = -1 by omega), hres]
        · have hb : (decide (n > 512)) = false := decide_eq_false hn512
          obtain ⟨j, hj, hj0, hjn⟩ := @linScan_ok keys key n 0
            (by intro q hq; simpa using hocc q hq)
          obtain ⟨res, hres⟩ := hAfterOk false f1 (by omega) j (by omega)
          refine ⟨res, ?_⟩
          simp only [Node.search, Bool.not_false, Bool.true_and, hb,
            Bool.false_eq_true, if_false, Node.keys, Node.n, hj, hres]

/-- The concrete two-entry leaf `demoLeaf2` satisfies the occupancy
invariant. -/
theorem demoLeaf2_wf : WFNode 2 0 demoLeaf2 := by
  refine WFNode.leaf 2 _ _ (by omega) (by omega) rfl rfl ?_ ?_ ?_
  · intro i hi
    by_cases h0 : i = 0
    · subst h0
      exact ⟨⟨5, 5⟩, rfl⟩
    · have h1 : i = 1 := by omega
      subst h1
      exact ⟨⟨6, 6⟩, rfl⟩
  · intro i hi1 hi2
    have h2 : i = 2 := by omega
    subst h2
    rfl
  · intro i hi
    interval_cases i <;> rfl

/-- The concrete one-entry leaf `demoLeafB` satisfies the occupancy
invariant. -/
theorem demoLeafB_wf : WFNode 2 0 demoLeafB := by
  refine WFNode.leaf 1 _ _ (by omega) (by omega) rfl rfl ?_ ?_ ?_
  · intro i hi
    have h0 : i = 0 := by omega
    subst h0
    exact ⟨⟨20, 20⟩, rfl⟩
  · intro i hi1 hi2
    interval_cases i <;> rfl
  · intro i hi
    interval_cases i <;> rfl

/-- The concrete two-level tree root `demoRoot` satisfies the occupancy
invariant. -/
theorem demoRoot_wf : WFNode 2 1 demoRoot := by
  refine WFNode.internal 0 1 _ _ (by omega) (by omega) rfl rfl ?_ ?_ ?_ ?_ ?_
  · intro i hi
    have h0 : i = 0 := by omega
    subst h0
    exact ⟨⟨10, 10⟩, rfl⟩
  · intro i hi1 hi2
    interval_cases i <;> rfl
  · intro i hi
    by_cases h0 : i = 0
    · subst h0
      exact ⟨demoLeaf2, rfl⟩
    · have h1 : i = 1 := by omega
      subst h1
      exact ⟨demoLeafB, rfl⟩
  · intro i c hi hc
    by_cases h0 : i = 0
    · subst h0
      cases hc
      exact demoLeaf2_wf
    · have h1 : i = 1 := by omega
      subst h1
      cases hc
      exact demoLeafB_wf
  · intro i hi1 hi2
    interval_cases i <;> simp_all <;> rfl

/-- Claim C6 (confirmed, for runs in which every insertion completes): when
inserting `N ≥ 1` pairwise-distinct keys succeeds, `traverse()` returns a
sequence of exactly `N` entries whose key multiset is exactly the set of
inserted keys — each inserted key appears exactly once. -/
theorem C6_traverse_returns_each_inserted_key_once {t fuel : Nat}
    {ps : List (Nat × Nat)} {tr : BTree} (ht : 2 ≤ t) (hps : ps ≠ [])
    (hdist : (ps.map Prod.fst).Nodup) (h : insertList fuel t ps = .ok tr) :
    ∃ f l, BTree.traverse f tr = .ok (some l) ∧
      l.length = ps.length ∧
      List.Perm (l.map Entry.key) (ps.map Prod.fst) ∧
      ∀ k, k ∈ ps.map Prod.fst → (l.map Entry.key).count k = 1 := by
  obtain ⟨htt, hrest⟩ := (insertList_ok ht).2 tr h
  rcases hrest with ⟨_, hps'⟩ | ⟨d, r, hsome, hwfr, hperm⟩
  · exact absurd hps' hps
  · have he : (ps.map (fun p => (⟨p.1, p.2⟩ : Entry))).map Entry.key =
        ps.map Prod.fst := by
      rw [List.map_map]
      rfl
    have hkeys : List.Perm ((travOut (d + 1) r).map Entry.key)
        (ps.map Prod.fst) := he ▸ hperm.map Entry.key
    refine ⟨d + 1, travOut (d + 1) r, ?_, ?_, hkeys, ?_⟩
    · simp only [BTree.traverse, hsome]
      rw [traverse_wf hwfr (d + 1) (le_refl _) []]
      simp
    · rw [hperm.length_eq, List.length_map]
    · intro k hk
      rw [hkeys.count_eq k]
      exact List.count_eq_one_of_mem hdist hk

/-- Witness for `C6_traverse_returns_each_inserted_key_once`: the concrete
degree-2 run inserting the four distinct keys `[10, 20, 5, 6]`. -/
theorem C6_witness_ks4 :
    2 ≤ 2 ∧ ks4 ≠ [] ∧ (ks4.map Prod.fst).Nodup ∧
    insertList 10 2 ks4 = .ok ⟨some demoRoot, 2⟩ ∧
    ∃ f l, BTree.traverse f (⟨some demoRoot, 2⟩ : BTree) = .ok (some l) ∧
      l.length = ks4.length ∧
      List.Perm (l.map Entry.key) (ks4.map Prod.fst) ∧
      ∀ k, k ∈ ks4.map Prod.fst → (l.map Entry.key).count k = 1 :=
  ⟨by decide, by decide, by decide, rfl,
    @C6_traverse_returns_each_inserted_key_once 2 10 ks4
      ⟨some demoRoot, 2⟩ (by decide) (by decide) (by decide) rfl⟩

/-- Claim C9 (confirmed): through the public interface the unsigned
computation `n - 1` at the top of `insert_non_full` never underflows.  In
this embedding entering `insert_non_full` with `n = 0` is flagged by the
distinguished error `underflowSub`, and no insertion run from a fresh tree
of degree `t ≥ 2` can produce it — even runs that die on the line-159
out-of-bounds panic fail with `oobIndex`, never `underflowSub`. -/
theorem C9_no_underflow_reachable {t fuel : Nat} {ps : List (Nat × Nat)}
    (ht : 2 ≤ t) :
    insertList fuel t ps ≠ .error .underflowSub := by
  intro h
  exact (insertList_ok ht).1 .underflowSub h rfl

/-- Witness for `C9_no_underflow_reachable`: the crashing degree-2 run
`ks7crash` (which panics out-of-bounds at line 159) still does not
underflow. -/
theorem C9_witness_ks7crash :
    2 ≤ 2 ∧ insertList 50 2 ks7crash ≠ .error .underflowSub :=
  ⟨by decide, C9_no_underflow_reachable (by decide)⟩

/-- Claim C10 (confirmed): the root of every tree reached by a completed
insertion run satisfies the slot-occupancy invariant `WFNode` (key slots
`[0, n)` occupied, `[n, 2t-1)` empty, child slots `[0, n+1)` occupied on
internal nodes, `n ≤ 2t-1`), and consequently every entry/child unwrap in
`traverse` and in both search modes succeeds. -/
theorem C10_occupancy_invariant {t fuel : Nat} {ps : List (Nat × Nat)}
    {tr : BTree} {r : Node} (ht : 2 ≤ t)
    (h : insertList fuel t ps = .ok tr) (hr : tr.root = some r) :
    ∃ d, WFNode t d r ∧
      (∃ l, BTree.traverse (d + 1) tr = .ok (some l)) ∧
      (∀ key, ∃ res, BTree.search (2 * d + 2) tr key = .ok res) ∧
      (∀ key, ∃ res, BTree.search_linear (2 * d + 2) tr key = .ok res) := by
  obtain ⟨htt, hrest⟩ := (insertList_ok ht).2 tr h
  rcases hrest with ⟨hnone, _⟩ | ⟨d, r', hsome, hwfr, hperm⟩
  · rw [hr] at hnone
    cases hnone
  · rw [hr] at hsome
    cases hsome
    refine ⟨d, hwfr, ⟨travOut (d + 1) r, ?_⟩, ?_, ?_⟩
    · simp only [BTree.traverse, hr]
      rw [traverse_wf hwfr (d + 1) (le_refl _) []]
      simp
    · intro key
      obtain ⟨res, hres⟩ :=
        (@search_wf t key d r hwfr (2 * d + 2)).2 (le_refl _) false
      refine ⟨res, ?_⟩
      simp only [BTree.search, hr, hres]
    · intro key
      obtain ⟨res, hres⟩ :=
        (@search_wf t key d r hwfr (2 * d + 2)).2 (le_refl _) true
      refine ⟨res, ?_⟩
      simp only [BTree.search_linear, hr, hres]

/-- Witness for `C10_occupancy_invariant`: the concrete degree-2 run
inserting `[10, 20, 5, 6]`. -/
theorem C10_witness_ks4 :
    insertList 10 2 ks4 = .ok ⟨some demoRoot, 2⟩ ∧
    (⟨some demoRoot, 2⟩ : BTree).root = some demoRoot ∧
    ∃ d, WFNode 2 d demoRoot ∧
      (∃ l, BTree.traverse (d + 1) (⟨some demoRoot, 2⟩ : BTree) =
        .ok (some l)) ∧
      (∀ key, ∃ res, BTree.search (2 * d + 2) (⟨some demoRoot, 2⟩ : BTree)
        key = .ok res) ∧
      (∀ key, ∃ res, BTree.search_linear (2 * d + 2)
        (⟨some demoRoot, 2⟩ : BTree) key = .ok res) :=
  ⟨rfl, rfl, @C10_occupancy_invariant 2 10 ks4 ⟨some demoRoot, 2⟩ demoRoot
    (by decide) rfl rfl⟩

/-- Claim C8 (confirmed): on a well-formed internal node, `traverse` emits
all `n` of the node's own entries in slot order before any child output,
then the outputs of children `0..n` left to right; and on the concrete
two-level degree-2 tree grown by inserting `[10, 20, 5, 6]` the full
`traverse()` output has keys `[10, 5, 6, 20]`, which is not in ascending
order. -/
theorem C8_node_major_traversal_order :
    (∀ (t d n : Nat) (keys : List (Option Entry))
        (child : List (Option Node)),
        WFNode t (d + 1) (Node.mk t n false keys child) →
        travOut (d + 2) (Node.mk t n false keys child) =
          seg keys 0 n ++
            (seg child 0 (n + 1)).flatMap (fun c => travOut (d + 1) c)) ∧
    (∃ tr l, insertList 10 2 ks4 = .ok tr ∧
      BTree.traverse 2 tr = .ok (some l) ∧
      l.map Entry.key = [10, 5, 6, 20] ∧
      ¬ List.Sorted (· ≤ ·) (l.map Entry.key)) := by
  constructor
  · intro t d n keys child h
    exact travOut_internal h
  · exact ⟨_, _, rfl, rfl, rfl, by decide⟩

/-- Witness for `C8_node_major_traversal_order` at the concrete root
`demoRoot` of the tree grown from `ks4`. -/
theorem C8_witness_demoRoot :
    WFNode 2 1 demoRoot ∧
    travOut 2 demoRoot =
      seg [some ⟨10, 10⟩, none, none] 0 1 ++
        (seg [some demoLeaf2, some demoLeafB, none, none] 0 2).flatMap
          (fun c => travOut 1 c) :=
  ⟨demoRoot_wf,
    C8_node_major_traversal_order.1 2 0 1 _ _ demoRoot_wf⟩

set_option maxRecDepth 100000 in
/-- Splitting the `c4ks` insertion sequence into bounded chunks. -/
theorem c4_split_chunks :
    c4ks = ([(0, 1), (0, 2)] : List (Nat × Nat)) ++
      (c4chunk 0 64 ++ (c4chunk 64 128 ++ (c4chunk 128 192 ++
        (c4chunk 192 256 ++ (c4chunk 256 320 ++ (c4chunk 320 384 ++
          (c4chunk 384 448 ++ c4chunk 448 511))))))) := rfl

set_option maxRecDepth 100000 in
/-- Replaying the two key-0 insertions from the fresh degree-257 tree. -/
theorem c4_run0 :
    ([(0, 1), (0, 2)] : List (Nat × Nat)).foldlM
      (fun tr p => BTree.insert 20 tr p.1 p.2) ⟨none, 257⟩ =
      .ok (c4tree 0) := rfl

set_option maxRecDepth 100000 in
/-- Replaying the insertions of the ascending keys `2 .. 65`. -/
theorem c4_run1 :
    (c4chunk 0 64).foldlM
      (fun tr p => BTree.insert 20 tr p.1 p.2) (c4tree 0) =
      .ok (c4tree 64) := rfl

set_option maxRecDepth 100000 in
/-- Replaying the insertions of the ascending keys `66 .. 129`. -/
theorem c4_run2 :
    (c4chunk 64 128).foldlM
      (fun tr p => BTree.insert 20 tr p.1 p.2) (c4tree 64) =
      .ok (c4tree 128) := rfl

set_option maxRecDepth 100000 in
/-- Replaying the insertions of the ascending keys `130 .. 193`. -/
theorem c4_run3 :
    (c4chunk 128 192).foldlM
      (fun tr p => BTree.insert 20 tr p.1 p.2) (c4tree 128) =
      .ok (c4tree 192) := rfl

set_option maxRecDepth 100000 in
/-- Replaying the insertions of the ascending keys `194 .. 257`. -/
theorem c4_run4 :
    (c4chunk 192 256).foldlM
      (fun tr p => BTree.insert 20 tr p.1 p.2) (c4tree 192) =
      .ok (c4tree 256) := rfl

set_option maxRecDepth 100000 in
/-- Replaying the insertions of the ascending keys `258 .. 321`. -/
theorem c4_run5 :
    (c4chunk 256 320).foldlM
      (fun tr p => BTree.insert 20 tr p.1 p.2) (c4tree 256) =
      .ok (c4tree 320) := rfl

set_option maxRecDepth 100000 in
/-- Replaying the insertions of the ascending keys `322 .. 385`. -/
theorem c4_run6 :
    (c4chunk 320 384).foldlM
      (fun tr p => BTree.insert 20 tr p.1 p.2) (c4tree 320) =
      .ok (c4tree 384) := rfl

set_option maxRecDepth 100000 in
/-- Replaying the insertions of the ascending keys `386 .. 449`. -/
theorem c4_run7 :
    (c4chunk 384 448).foldlM
      (fun tr p => BTree.insert 20 tr p.1 p.2) (c4tree 384) =
      .ok (c4tree 448) := rfl

set_option maxRecDepth 100000 in
/-- Replaying the insertions of the ascending keys `450 .. 512`. -/
theorem c4_run8 :
    (c4chunk 448 511).foldlM
      (fun tr p => BTree.insert 20 tr p.1 p.2) (c4tree 448) =
      .ok (c4tree 511) := rfl

set_option maxRecDepth 100000 in
/-- On the 513-entry leaf, the default search takes the binary fast path
and lands on slot 1, the second entry with key 0 (payload 2). -/
theorem c4_search_fast :
    BTree.search 20 (c4tree 511) 0 = .ok (some ⟨0, 2⟩) := rfl

set_option maxRecDepth 100000 in
/-- On the same leaf, the forced-linear search stops at slot 0, the first
entry with key 0 (payload 1). -/
theorem c4_search_lin :
    BTree.search_linear 20 (c4tree 511) 0 = .ok (some ⟨0, 1⟩) := rfl

/-- Composing a fold over `Except` across a list split: once the first part
has run to a success state, folding the concatenation equals folding the
second part from that state. -/
theorem foldlM_except_chunk {α β : Type} (f : β → α → Except Err β) :
    ∀ (l1 l2 : List α) (b0 b1 : β),
      l1.foldlM f b0 = .ok b1 →
      (l1 ++ l2).foldlM f b0 = l2.foldlM f b1 := by
  intro l1
  induction l1 with
  | nil =>
    intro l2 b0 b1 h1
    simp only [List.foldlM_nil, pure, Except.pure] at h1
    cases h1
    rw [List.nil_append]
  | cons a l1 ih =>
    intro l2 b0 b1 h1
    simp only [List.foldlM_cons] at h1
    simp only [List.cons_append, List.foldlM_cons]
    cases hfa : f b0 a with
    | error e =>
      rw [hfa] at h1
      simp only [Bind.bind, Except.bind] at h1
      cases h1
    | ok b2 =>
      rw [hfa] at h1
      simp only [Bind.bind, Except.bind] at h1
      simp only [Bind.bind, Except.bind]
      exact ih l2 b2 b1 h1

set_option maxRecDepth 100000 in
/-- Unfolding `insertList` on the concrete degree-257 run to the underlying
fold from the fresh empty tree. -/
theorem c4_unfold : insertList 20 257 c4ks =
    c4ks.foldlM (fun tr p => BTree.insert 20 tr p.1 p.2) ⟨none, 257⟩ := rfl

/-- The whole degree-257 insertion run, replayed chunk by chunk. -/
theorem c4_whole_run : insertList 20 257 c4ks = .ok (c4tree 511) :=
  calc insertList 20 257 c4ks
      = c4ks.foldlM (fun tr p => BTree.insert 20 tr p.1 p.2) ⟨none, 257⟩ := c4_unfold
    _ = (([(0, 1), (0, 2)] : List (Nat × Nat)) ++
          (c4chunk 0 64 ++ (c4chunk 64 128 ++ (c4chunk 128 192 ++ (c4chunk 192 256 ++ (c4chunk 256 320 ++ (c4chunk 320 384 ++ (c4chunk 384 448 ++ (c4chunk 448 511))))))))).foldlM
        (fun tr p => BTree.insert 20 tr p.1 p.2) ⟨none, 257⟩ := by rw [c4_split_chunks]
    _ = (c4chunk 0 64 ++ (c4chunk 64 128 ++ (c4chunk 128 192 ++ (c4chunk 192 256 ++ (c4chunk 256 320 ++ (c4chunk 320 384 ++ (c4chunk 384 448 ++ (c4chunk 448 511)))))))).foldlM
        (fun tr p => BTree.insert 20 tr p.1 p.2) (c4tree 0) :=
      foldlM_except_chunk _ _ _ _ _ c4_run0
    _ = (c4chunk 64 128 ++ (c4chunk 128 192 ++ (c4chunk 192 256 ++ (c4chunk 256 320 ++ (c4chunk 320 384 ++ (c4chunk 384 448 ++ (c4chunk 448 511))))))).foldlM
        (fun tr p => BTree.insert 20 tr p.1 p.2) (c4tree 64) :=
      foldlM_except_chunk _ _ _ _ _ c4_run1
    _ = (c4chunk 128 192 ++ (c4chunk 192 256 ++ (c4chunk 256 320 ++ (c4chunk 320 384 ++ (c4chunk 384 448 ++ (c4chunk 448 511)))))).foldlM
        (fun tr p => BTree.insert 20 tr p.1 p.2) (c4tree 128) :=
      foldlM_except_chunk _ _ _ _ _ c4_run2
    _ = (c4chunk 192 256 ++ (c4chunk 256 320 ++ (c4chunk 320 384 ++ (c4chunk 384 448 ++ (c4chunk 448 511))))).foldlM
        (fun tr p => BTree.insert 20 tr p.1 p.2) (c4tree 192) :=
      foldlM_except_chunk _ _ _ _ _ c4_run3
    _ = (c4chunk 256 320 ++ (c4chunk 320 384 ++ (c4chunk 384 448 ++ (c4chunk 448 511)))).foldlM
        (fun tr p => BTree.insert 20 tr p.1 p.2) (c4tree 256) :=
      foldlM_except_chunk _ _ _ _ _ c4_run4
    _ = (c4chunk 320 384 ++ (c4chunk 384 448 ++ (c4chunk 448 511))).foldlM
        (fun tr p => BTree.insert 20 tr p.1 p.2) (c4tree 320) :=
      foldlM_except_chunk _ _ _ _ _ c4_run5
    _ = (c4chunk 384 448 ++ (c4chunk 448 511)).foldlM
        (fun tr p => BTree.insert 20 tr p.1 p.2) (c4tree 384) :=
      foldlM_except_chunk _ _ _ _ _ c4_run6
    _ = (c4chunk 448 511).foldlM
        (fun tr p => BTree.insert 20 tr p.1 p.2) (c4tree 448) :=
      foldlM_except_chunk _ _ _ _ _ c4_run7
    _ = .ok (c4tree 511) := c4_run8

/-- Claim C4, counterexample: a reachable tree state on which `search` and
`search_linear` disagree.  With degree 257 the root is a single leaf of
capacity `2t - 1 = 513 > 512`; inserting two entries with equal key 0 and
payloads 1, 2 followed by 511 larger keys makes the binary-search fast path
of `search` find slot 1 (payload 2) while the linear scan of `search_linear`
finds slot 0 (payload 1).  The insertion run is replayed in chunks of at
most 64 insertions through the explicit intermediate states `c4tree m`. -/
theorem C4_counterexample_binary_path_changes_result :
    (insertList 20 257 c4ks).map
      (fun tr => (BTree.search 20 tr 0, BTree.search_linear 20 tr 0)) =
      .ok (.ok (some ⟨0, 2⟩), .ok (some ⟨0, 1⟩)) ∧
    some (⟨0, 2⟩ : Entry) ≠ some (⟨0, 1⟩ : Entry) := by
  refine ⟨?_, by decide⟩
  rw [c4_whole_run]
  simp only [Except.map, c4_search_fast, c4_search_lin]
